import Mathlib

/-!
# Poppy morphing core (`src/algo.cpp`): a shallow embedding

The C++ functions of `algo.cpp` are translated one by one into Lean functions.

Conventions of the embedding:

* `float` / `double` scalars are modelled by exact rationals `ℚ`; rounding of
  IEEE arithmetic is abstracted away, so every equation below is an equation of
  exact arithmetic. The one exception is the section on `morph_points` with the
  rounding of `float` and `double`, where lines 55-56 are evaluated with every
  rounding made explicit.
* `std::vector<T>` is `List T`; an output parameter is an argument that is
  returned again, so that "what the call leaves behind" can be stated.
* A failing `assert` and an OpenCV exception are `none`.
* `cv::Point` has integer coordinates, `cv::Point2f` has scalar coordinates.
-/

namespace poppy

/-! ## Data model -/

/-- The OpenCV type `cv::Point2f`: a point with scalar coordinates. -/
structure Point2f where
  x : ℚ
  y : ℚ
  deriving DecidableEq, Repr

/-- A value-initialised `Point2f` is the origin (what `vector::resize` inserts). -/
instance : Inhabited Point2f := ⟨⟨0, 0⟩⟩

/-- The OpenCV type `cv::Point`: a point with `int` coordinates. -/
structure Point where
  x : Int
  y : Int
  deriving DecidableEq, Repr

instance : Inhabited Point := ⟨⟨0, 0⟩⟩

/-- The method `std::vector::resize(n)`: truncate, or pad with value-initialised elements. -/
def resize {α : Type} [Inhabited α] (v : List α) (n : Nat) : List α :=
  v.take n ++ List.replicate (n - v.length) default

/-! ## `morph_points` (algo.cpp, lines 50-58) -/

/-- The three vectors `morph_points` receives by reference. -/
structure MorphPointsArgs where
  srcPts1 : List Point2f
  srcPts2 : List Point2f
  dstPts : List Point2f
  deriving DecidableEq, Repr

/-- One iteration of the loop of `morph_points`: both coordinates of `dstPts[i]` are assigned. -/
def morph_points_body (s : ℚ) (st : MorphPointsArgs) (i : Nat) : MorphPointsArgs :=
  let p1 := st.srcPts1.getD i default
  let p2 := st.srcPts2.getD i default
  let d := st.dstPts.getD i default
  let d := { d with x := (1 - s) * p1.x + s * p2.x }
  let d := { d with y := (1 - s) * p1.y + s * p2.y }
  { st with dstPts := st.dstPts.set i d }

/-- The function `morph_points`: assert equal sizes, resize `dstPts`, run the loop. -/
def morph_points (st : MorphPointsArgs) (s : ℚ) : Option MorphPointsArgs :=
  if st.srcPts1.length = st.srcPts2.length then
    let numPts := st.srcPts1.length
    let st := { st with dstPts := resize st.dstPts numPts }
    some ((List.range numPts).foldl (morph_points_body s) st)
  else none

/-- The interpolated point `(1-s)*a + s*b`, as the specification writes it. -/
def lerpPoint (s : ℚ) (a b : Point2f) : Point2f :=
  ⟨(1 - s) * a.x + s * b.x, (1 - s) * a.y + s * b.y⟩

/-! ## Matrices

A `cv::Mat` of type `CV_32FC1` with three rows is a `Matrix (Fin 3) (Fin n) ℚ`; the
homographies are the square ones. -/

/-- A 3x3 `cv::Mat` of scalars. -/
abbrev Mat3 := Matrix (Fin 3) (Fin 3) ℚ

/-- The determinant OpenCV computes for a 3x3 matrix (the `det3` expansion along the
first row used by `cv::invert`). -/
def det3 (m : Mat3) : ℚ :=
  m 0 0 * (m 1 1 * m 2 2 - m 1 2 * m 2 1)
    - m 0 1 * (m 1 0 * m 2 2 - m 1 2 * m 2 0)
    + m 0 2 * (m 1 0 * m 2 1 - m 1 1 * m 2 0)

/-- The method `cv::Mat::inv()` (method `DECOMP_LU`) on a 3x3 matrix, as `cv::invert`
computes it: the cofactors scaled by `1/det` when the determinant is not zero, and the
zero matrix when it is. -/
def inv (m : Mat3) : Mat3 :=
  if det3 m ≠ 0 then
    let d := 1 / det3 m
    !![(m 1 1 * m 2 2 - m 1 2 * m 2 1) * d, (m 0 2 * m 2 1 - m 0 1 * m 2 2) * d,
         (m 0 1 * m 1 2 - m 0 2 * m 1 1) * d;
       (m 1 2 * m 2 0 - m 1 0 * m 2 2) * d, (m 0 0 * m 2 2 - m 0 2 * m 2 0) * d,
         (m 0 2 * m 1 0 - m 0 0 * m 1 2) * d;
       (m 1 0 * m 2 1 - m 1 1 * m 2 0) * d, (m 0 1 * m 2 0 - m 0 0 * m 2 1) * d,
         (m 0 0 * m 1 1 - m 0 1 * m 1 0) * d]
  else 0

/-! ## `points_to_homogenous_mat` (algo.cpp, lines 39-48) -/

/-- The function `points_to_homogenous_mat`: a matrix with three rows and one column
`(x, y, 1)` per point. -/
def points_to_homogenous_mat (pts : List Point) : Matrix (Fin 3) (Fin pts.length) ℚ :=
  Matrix.of fun r i =>
    if r = 0 then ((pts.get i).x : ℚ) else if r = 1 then ((pts.get i).y : ℚ) else 1

/-! ## `solve_homography` (algo.cpp, lines 108-126) -/

/-- The single-triangle `solve_homography`: the two vectors must have one size (the
`assert`), and `inv()` accepts only a square matrix, so both hold three points; the
result is `Hom(srcPts2) * Hom(srcPts1).inv()`. -/
def solve_homography (srcPts1 srcPts2 : List Point) : Option Mat3 :=
  if h : srcPts1.length = srcPts2.length then
    if h3 : srcPts1.length = 3 then
      some (((points_to_homogenous_mat srcPts2).submatrix id (Fin.cast (h3.symm.trans h)))
        * inv ((points_to_homogenous_mat srcPts1).submatrix id (Fin.cast h3.symm)))
    else none
  else none

/-! ## `morph_homography` (algo.cpp, lines 128-144) -/

/-- The single-matrix `morph_homography`: the pair `(MorphHom1, MorphHom2)`. -/
def morph_homography (Hom : Mat3) (blend_ratio : ℚ) : Mat3 × Mat3 :=
  let invHom := inv Hom
  ((1 - blend_ratio) • (1 : Mat3) + blend_ratio • Hom,
   blend_ratio • (1 : Mat3) + (1 - blend_ratio) • invHom)

/-! ## Vocabulary of the specification for triangles -/

/-- Three integer points lie on one line: the cross product of the two edge vectors
from the first point vanishes. -/
def collinear (p0 p1 p2 : Point) : Prop :=
  (p1.x - p0.x) * (p2.y - p0.y) - (p2.x - p0.x) * (p1.y - p0.y) = 0

instance (p0 p1 p2 : Point) : Decidable (collinear p0 p1 p2) := by
  unfold collinear
  infer_instance

/-- The matrix `Hom` of the specification: the columns are `(x, y, 1)` of the three
points. -/
def homMat (p0 p1 p2 : Point) : Mat3 :=
  !![(p0.x : ℚ), (p1.x : ℚ), (p2.x : ℚ);
     (p0.y : ℚ), (p1.y : ℚ), (p2.y : ℚ);
     1, 1, 1]

/-- The homogeneous coordinates `(x, y, 1)` of a point with scalar coordinates. -/
def homog (x y : ℚ) : Fin 3 → ℚ := ![x, y, 1]

/-! ## Dense fields

A single-channel `cv::Mat` with `rows` x `cols` elements; `data y x` is `at(y, x)`.
Only the elements with `y < rows` and `x < cols` belong to the matrix. -/

/-- A single-channel `cv::Mat` with elements of type `α`. -/
structure MatOf (α : Type) where
  rows : Nat
  cols : Nat
  data : Nat → Nat → α

/-- The assignment `m.at(y, x) = v`. -/
def MatOf.set {α : Type} (m : MatOf α) (y x : Nat) (v : α) : MatOf α :=
  { m with data := fun y' x' => if y' = y ∧ x' = x then v else m.data y' x' }

/-- The method `cv::Mat::create(size, type)`: the matrix takes the given size; its
elements are not initialised (here: whatever was stored before). -/
def MatOf.create {α : Type} (m : MatOf α) (rows cols : Nat) : MatOf α :=
  { m with rows := rows, cols := cols }

/-! ## `create_map` (algo.cpp, lines 146-176) -/

/-- The body of the two loops of `create_map` at the pixel `(x, y)`: the pair
`(mapx, mapy)` after the assignments, or `none` when `invHomMatrices` is indexed
outside its bounds. -/
def create_map_pixel (triangleMap : MatOf Int) (invHomMatrices : List Mat3) (y x : Nat)
    (maps : MatOf ℚ × MatOf ℚ) : Option (MatOf ℚ × MatOf ℚ) :=
  let idx := triangleMap.data y x - 1
  if idx ≥ 0 then
    match invHomMatrices[(triangleMap.data y x - 1).toNat]? with
    | none => none
    | some H =>
      let z := H 2 0 * (x : ℚ) + H 2 1 * (y : ℚ) + H 2 2
      let z := if z = 0 then 1 / 100000 else z
      some (maps.1.set y x ((H 0 0 * (x : ℚ) + H 0 1 * (y : ℚ) + H 0 2) / z),
            maps.2.set y x ((H 1 0 * (x : ℚ) + H 1 1 * (y : ℚ) + H 1 2) / z))
  else
    some (maps.1.set y x (x : ℚ), maps.2.set y x (y : ℚ))

/-- The inner loop of `create_map`: the pixels of row `y`, from left to right. -/
def create_map_row (triangleMap : MatOf Int) (invHomMatrices : List Mat3) (y : Nat)
    (maps : MatOf ℚ × MatOf ℚ) : Option (MatOf ℚ × MatOf ℚ) :=
  (List.range triangleMap.cols).foldlM
    (fun st x => create_map_pixel triangleMap invHomMatrices y x st) maps

/-- The function `create_map`: both maps are created with the size of `triangleMap`, the
inverse of every homography is computed, then every pixel is assigned, row by row. -/
def create_map (triangleMap : MatOf Int) (homMatrices : List Mat3)
    (mapx mapy : MatOf ℚ) : Option (MatOf ℚ × MatOf ℚ) :=
  let mapx := mapx.create triangleMap.rows triangleMap.cols
  let mapy := mapy.create triangleMap.rows triangleMap.cols
  let invHomMatrices := homMatrices.map inv
  (List.range triangleMap.rows).foldlM
    (fun st y => create_map_row triangleMap invHomMatrices y st) (mapx, mapy)

/-- The source coordinate the specification assigns to the pixel `(x, y)` of a triangle
whose inverse homography is `Hinv`: with `(u, v, w) = Hinv * (x, y, 1)`, the pair
`(u/w', v/w')` where `w'` is `w`, or `0.00001` when `w` is zero. -/
def warpCoord (Hinv : Mat3) (x y : Nat) : ℚ × ℚ :=
  let uvw := Matrix.mulVec Hinv (homog (x : ℚ) (y : ℚ))
  let w := if uvw 2 = 0 then 1 / 100000 else uvw 2
  (uvw 0 / w, uvw 1 / w)

/-! ## `get_triangle_indices` (algo.cpp, lines 60-81)

The triangulation `cv::Subdiv2D` is an OpenCV object; the function only reads its
`getTriangleList()`, a vector of `Vec6f` holding the coordinates of the three
vertices of each triangle, which is what the embedding takes as input. -/

/-- The OpenCV type `cv::Vec6f`: the six coordinates `x0 y0 x1 y1 x2 y2` of a triangle. -/
structure Vec6f where
  c0 : ℚ
  c1 : ℚ
  c2 : ℚ
  c3 : ℚ
  c4 : ℚ
  c5 : ℚ
  deriving DecidableEq, Repr

instance : Inhabited Vec6f := ⟨⟨0, 0, 0, 0, 0, 0⟩⟩

/-- The OpenCV type `cv::Vec3i`: three `int` components. -/
structure Vec3i where
  i0 : Int
  i1 : Int
  i2 : Int
  deriving DecidableEq, Repr

/-- The algorithm `std::find(points.begin(), points.end(), v) - points.begin()`: the
position of the first element equal to `v`, and `points.size()` (the position of
`end()`) when there is none. -/
def find (points : List Point2f) (v : Point2f) : Nat :=
  match points with
  | [] => 0
  | p :: ps => if p = v then 0 else find ps v + 1

/-- The method `std::vector::clear()`. -/
def clear {α : Type} (_v : List α) : List α := []

/-- One iteration of the loop of `get_triangle_indices` on triangle `i`. -/
def get_triangle_indices_body (triangles : List Vec6f) (points : List Point2f)
    (triangleVertices : List Vec3i) (i : Nat) : List Vec3i :=
  let t := triangles.getD i default
  let vert1 := find points ⟨t.c0, t.c1⟩
  let vert2 := find points ⟨t.c2, t.c3⟩
  let vert3 := find points ⟨t.c4, t.c5⟩
  if vert1 ≠ points.length ∧ vert2 ≠ points.length ∧ vert3 ≠ points.length then
    triangleVertices ++ [⟨(vert1 : Int), (vert2 : Int), (vert3 : Int)⟩]
  else triangleVertices

/-- The function `get_triangle_indices`: the output vector is cleared, then every
triangle of the list is looked up. -/
def get_triangle_indices (triangles : List Vec6f) (points : List Point2f)
    (triangleVertices : List Vec3i) : List Vec3i :=
  let numTriangles := triangles.length
  let triangleVertices := clear triangleVertices
  (List.range numTriangles).foldl (get_triangle_indices_body triangles points)
    triangleVertices

/-! ## Vocabulary of the specification for the indexer -/

/-- The three vertices of a triangle of the triangulation. -/
def Vec6f.vertex (t : Vec6f) (j : Fin 3) : Point2f :=
  match j with
  | 0 => ⟨t.c0, t.c1⟩
  | 1 => ⟨t.c2, t.c3⟩
  | 2 => ⟨t.c4, t.c5⟩

/-- The component `j` of an index triple. -/
def Vec3i.index (v : Vec3i) (j : Fin 3) : Int :=
  match j with
  | 0 => v.i0
  | 1 => v.i1
  | 2 => v.i2

/-- The number `i` is the smallest index at which `points` holds the coordinate `v`. -/
def IsFirstIndex (points : List Point2f) (v : Point2f) (i : Int) : Prop :=
  ∃ k : Nat, i = (k : Int) ∧ points[k]? = some v ∧ ∀ m, m < k → points[m]? ≠ some v

/-- The index triple `idx` resolves the triangle `t`: each component is the smallest
index of the corresponding vertex coordinate in `points`. -/
def Resolves (points : List Point2f) (t : Vec6f) (idx : Vec3i) : Prop :=
  ∀ j : Fin 3, IsFirstIndex points (t.vertex j) (idx.index j)

/-- All three vertex coordinates of the triangle occur in the point set. -/
def AllVerticesOccur (points : List Point2f) (t : Vec6f) : Prop :=
  ∀ j : Fin 3, t.vertex j ∈ points

instance (points : List Point2f) (t : Vec6f) : Decidable (AllVerticesOccur points t) := by
  unfold AllVerticesOccur
  infer_instance

/-- The three vertex coordinates of the triangle are pairwise different, as those of a
triangle of a triangulation are. -/
def DistinctVertices (t : Vec6f) : Prop :=
  t.vertex 0 ≠ t.vertex 1 ∧ t.vertex 0 ≠ t.vertex 2 ∧ t.vertex 1 ≠ t.vertex 2

instance (t : Vec6f) : Decidable (DistinctVertices t) := by
  unfold DistinctVertices
  infer_instance

/-! ## The batched `solve_homography` and `morph_homography` (algo.cpp, lines 113-126, 134-144)

C++ overloads on vectors of triangles and of matrices; here they carry the suffix
`_batch`. -/

/-- One iteration of the loop of the batched `solve_homography`: the homography of the
pair `i` is pushed back; a failure of the single-triangle call propagates. -/
def solve_homography_batch_body (srcPts1 srcPts2 : List (List Point)) (hmats : List Mat3)
    (i : Nat) : Option (List Mat3) :=
  match solve_homography (srcPts1.getD i []) (srcPts2.getD i []) with
  | none => none
  | some homography => some (hmats ++ [homography])

/-- The batched `solve_homography`: assert equal sizes, clear `hmats`, solve every pair
in order. -/
def solve_homography_batch (srcPts1 srcPts2 : List (List Point)) (hmats : List Mat3) :
    Option (List Mat3) :=
  if srcPts1.length = srcPts2.length then
    let ptsNum := srcPts1.length
    let hmats := clear hmats
    (List.range ptsNum).foldlM (solve_homography_batch_body srcPts1 srcPts2) hmats
  else none

/-- One iteration of the loop of the batched `morph_homography`: both outputs receive
their entry `i`. -/
def morph_homography_batch_body (homs : List Mat3) (blend_ratio : ℚ)
    (st : List Mat3 × List Mat3) (i : Nat) : List Mat3 × List Mat3 :=
  let r := morph_homography (homs.getD i 0) blend_ratio
  (st.1.set i r.1, st.2.set i r.2)

/-- The batched `morph_homography`: both output vectors are resized to the number of
homographies, then filled in order. -/
def morph_homography_batch (homs morphHoms1 morphHoms2 : List Mat3) (blend_ratio : ℚ) :
    List Mat3 × List Mat3 :=
  let numHoms := homs.length
  let morphHoms1 := resize morphHoms1 numHoms
  let morphHoms2 := resize morphHoms2 numHoms
  (List.range numHoms).foldl (morph_homography_batch_body homs blend_ratio)
    (morphHoms1, morphHoms2)

/-- A vector of points is a triangle whose three points lie on one line. -/
def collinearTriangle : List Point → Prop
  | [p0, p1, p2] => collinear p0 p1 p2
  | _ => False

/-- A vector of points is a triangle whose three points do not lie on one line. -/
def nonCollinearTriangle : List Point → Prop
  | [p0, p1, p2] => ¬ collinear p0 p1 p2
  | _ => False

/-- The value `create_map` assigns to both maps at the pixel `(x, y)`, as a function of
the identifier stored there: the pixel itself when `idx >= 0` fails, and the quotient by
`z` (or by `0.00001`) computed from the inverse of the homography `idx` otherwise. -/
def create_map_value (triangleMap : MatOf Int) (homMatrices : List Mat3) (y x : Nat) :
    ℚ × ℚ :=
  if triangleMap.data y x - 1 ≥ 0 then
    warpCoord (inv (homMatrices.getD (triangleMap.data y x - 1).toNat 0)) x y
  else ((x : ℚ), (y : ℚ))

/-- The denominator `z` that `create_map` computes at the pixel `(x, y)` from the inverse
homography `H`, before the test `z == 0`. -/
def create_map_z (H : Mat3) (x y : Nat) : ℚ :=
  H 2 0 * (x : ℚ) + H 2 1 * (y : ℚ) + H 2 2

instance (t : List Point) : Decidable (collinearTriangle t) := by
  unfold collinearTriangle
  split <;> infer_instance

instance (t : List Point) : Decidable (nonCollinearTriangle t) := by
  unfold nonCollinearTriangle
  split <;> infer_instance

/-! ## Vocabulary of the specification for the intermediate triangle -/

/-- The third row of the matrix is `(0, 0, 1)`. -/
def thirdRowUnit (m : Mat3) : Prop :=
  m 2 0 = 0 ∧ m 2 1 = 0 ∧ m 2 2 = 1

instance (m : Mat3) : Decidable (thirdRowUnit m) := by
  unfold thirdRowUnit
  infer_instance

/-- The intermediate vertex `(1-r)*a + r*b` of two integer vertices. -/
def interpolated (r : ℚ) (a b : Point) : Point2f :=
  ⟨(1 - r) * (a.x : ℚ) + r * (b.x : ℚ), (1 - r) * (a.y : ℚ) + r * (b.y : ℚ)⟩

/-- Three points with scalar coordinates lie on one line. -/
def collinear2f (p0 p1 p2 : Point2f) : Prop :=
  (p1.x - p0.x) * (p2.y - p0.y) - (p2.x - p0.x) * (p1.y - p0.y) = 0

instance (p0 p1 p2 : Point2f) : Decidable (collinear2f p0 p1 p2) := by
  unfold collinear2f
  infer_instance

/-- The matrix whose columns are `(x, y, 1)` of three points with scalar coordinates. -/
def homMat2f (p0 p1 p2 : Point2f) : Mat3 :=
  !![p0.x, p1.x, p2.x;
     p0.y, p1.y, p2.y;
     1, 1, 1]

/-! ## `make_delaunay_mesh` (algo.cpp, lines 19-37)

As for `get_triangle_indices`, the triangulation enters as its `getTriangleList()`. -/

/-- The OpenCV function `cvRound`: the nearest integer, a tie going to the even one (the
default rounding mode of the conversion instruction it compiles to). -/
def cvRound (v : ℚ) : Int :=
  let f := Int.floor v
  let d := v - (f : ℚ)
  if d < 1 / 2 then f
  else if 1 / 2 < d then f + 1
  else if f % 2 = 0 then f else f + 1

/-- The OpenCV type `cv::Size`. -/
structure Size where
  width : Int
  height : Int
  deriving DecidableEq, Repr

/-- The OpenCV type `cv::Rect`. -/
structure Rect where
  x : Int
  y : Int
  width : Int
  height : Int
  deriving DecidableEq, Repr

/-- The method `cv::Rect::contains`: the left and top edges are inside, the right and
bottom edges are outside. The point tested has integer-valued coordinates, so its
conversion to `cv::Point` changes nothing. -/
def Rect.contains (r : Rect) (pt : Point2f) : Prop :=
  (r.x : ℚ) ≤ pt.x ∧ pt.x < (r.x : ℚ) + (r.width : ℚ) ∧
  (r.y : ℚ) ≤ pt.y ∧ pt.y < (r.y : ℚ) + (r.height : ℚ)

instance (r : Rect) (pt : Point2f) : Decidable (r.contains pt) := by
  unfold Rect.contains
  infer_instance

/-- One iteration of the loop of `make_delaunay_mesh` on triangle `i`. -/
def make_delaunay_mesh_body (rect : Rect) (triangleList : List Vec6f)
    (dstPoints : List Point2f) (i : Nat) : List Point2f :=
  let t := triangleList.getD i default
  let pt0 : Point2f := ⟨(cvRound t.c0 : ℚ), (cvRound t.c1 : ℚ)⟩
  let pt1 : Point2f := ⟨(cvRound t.c2 : ℚ), (cvRound t.c3 : ℚ)⟩
  let pt2 : Point2f := ⟨(cvRound t.c4 : ℚ), (cvRound t.c5 : ℚ)⟩
  if rect.contains pt0 ∧ rect.contains pt1 ∧ rect.contains pt2 then
    ((dstPoints ++ [pt0]) ++ [pt1]) ++ [pt2]
  else dstPoints

/-- The function `make_delaunay_mesh`: the rectangle is `(0, 0, width, height)`; the
points are appended to `dstPoints`, which is not cleared. -/
def make_delaunay_mesh (size : Size) (triangleList : List Vec6f)
    (dstPoints : List Point2f) : List Point2f :=
  let rect : Rect := ⟨0, 0, size.width, size.height⟩
  (List.range triangleList.length).foldl (make_delaunay_mesh_body rect triangleList)
    dstPoints

/-! ## Vocabulary of the specification for the mesh -/

/-- The vertex `j` of a triangle with both coordinates rounded to the nearest integer. -/
def roundedVertex (t : Vec6f) (j : Fin 3) : Point2f :=
  ⟨(cvRound (t.vertex j).x : ℚ), (cvRound (t.vertex j).y : ℚ)⟩

/-- The point satisfies `0 <= x < width` and `0 <= y < height`. -/
def InBounds (size : Size) (p : Point2f) : Prop :=
  0 ≤ p.x ∧ p.x < (size.width : ℚ) ∧ 0 ≤ p.y ∧ p.y < (size.height : ℚ)

instance (size : Size) (p : Point2f) : Decidable (InBounds size p) := by
  unfold InBounds
  infer_instance

/-- All three rounded vertices of the triangle are in bounds. -/
def TriangleInBounds (size : Size) (t : Vec6f) : Prop :=
  ∀ j : Fin 3, InBounds size (roundedVertex t j)

instance (size : Size) (t : Vec6f) : Decidable (TriangleInBounds size t) := by
  unfold TriangleInBounds
  infer_instance

/-! ## The blend mask of `morph_images` (algo.cpp, lines 250-258)

The grayscale conversion `cvtColor` is an OpenCV primitive; its result enters as the
field `m2`. The lines that follow are matrix expressions, evaluated element by element. -/

/-- The expression `Mat::ones(size, type)`. -/
def MatOf.ones (rows cols : Nat) : MatOf ℚ := ⟨rows, cols, fun _ _ => 1⟩

/-- The expression `Mat::zeros(size, CV_32SC1)`. -/
def MatOf.zeros (rows cols : Nat) : MatOf Int := ⟨rows, cols, fun _ _ => 0⟩

/-- The expression `m * s` for a scalar `s`. -/
def MatOf.scale (m : MatOf ℚ) (s : ℚ) : MatOf ℚ :=
  { m with data := fun y x => m.data y x * s }

/-- The expression `a - b` for two fields of one size. -/
def MatOf.sub (a b : MatOf ℚ) : MatOf ℚ :=
  { a with data := fun y x => a.data y x - b.data y x }

/-- The expression `s - m` for a scalar `s`. -/
def MatOf.rsub (s : ℚ) (m : MatOf ℚ) : MatOf ℚ :=
  { m with data := fun y x => s - m.data y x }

/-- The comparison `m < s`, a field of truth values. -/
def MatOf.lt (m : MatOf ℚ) (s : ℚ) : MatOf Bool :=
  ⟨m.rows, m.cols, fun y x => decide (m.data y x < s)⟩

/-- The comparison `m > s`, a field of truth values. -/
def MatOf.gt (m : MatOf ℚ) (s : ℚ) : MatOf Bool :=
  ⟨m.rows, m.cols, fun y x => decide (m.data y x > s)⟩

/-- The method `m.setTo(v, mask)`: the elements selected by the mask become `v`. -/
def MatOf.setTo (m : MatOf ℚ) (v : ℚ) (mask : MatOf Bool) : MatOf ℚ :=
  { m with data := fun y x => if mask.data y x then v else m.data y x }

/-- Lines 252-258 of `morph_images`: from the grayscale guidance `m2` and `maskRatio`
to the blend mask `lbmask`. -/
def morph_images_lbmask (m2 : MatOf ℚ) (maskRatio : ℚ) : MatOf ℚ :=
  let m2 := MatOf.rsub 1 m2
  let ones := MatOf.ones m2.rows m2.cols
  let lbmask := (ones.scale (1 - maskRatio)).sub (m2.scale maskRatio)
  let lbmask := lbmask.setTo 0 (lbmask.lt 0)
  let lbmask := lbmask.setTo 1 (lbmask.gt 1)
  lbmask

/-- The clamp of the specification: `v` limited to the interval `[lo, hi]`. -/
def clamp (v lo hi : ℚ) : ℚ := max lo (min v hi)

/-! ## The sharpening amount of `morph_images` (algo.cpp, lines 263-264)

The sine and the constant `M_PI` belong to the C library; they are parameters, so that
the two expressions can be read over any scalar type. -/

/-- Line 263 of `morph_images`: `amount = sin(maskRatio * M_PI)`. -/
def morph_images_amount {α : Type} [Mul α] (sin : α → α) (pi : α) (maskRatio : α) : α :=
  sin (maskRatio * pi)

/-- Line 264 of `morph_images`: the third argument of the call of `unsharp_mask`, which
is `1.0 - amount`. -/
def morph_images_unsharp_arg {α : Type} [Mul α] [One α] [Sub α] (sin : α → α) (pi : α)
    (maskRatio : α) : α :=
  1 - morph_images_amount sin pi maskRatio

/-! ## `paint_triangles` (algo.cpp, lines 95-106)

The rasterizer `cv::fillConvexPoly` is an OpenCV primitive: the set of pixels it fills
for a polygon is the parameter `filled` (`filled poly y x` for the pixel `(x, y)`). -/

/-- The call `fillConvexPoly(img, poly, Scalar(color))`: the filled pixels of the image
take the value `color`, the others keep theirs. -/
def fillConvexPoly (filled : List Point → Nat → Nat → Bool) (img : MatOf Int)
    (poly : List Point) (color : Int) : MatOf Int :=
  { img with data := fun y x =>
      if y < img.rows ∧ x < img.cols ∧ filled poly y x = true then color
      else img.data y x }

/-- The polygon `paint_triangles` builds from a triangle: its first three points, each
coordinate passed through `cvRound`; `none` when the triangle has fewer than three. -/
def roundedPoly (triangle : List Point) : Option (List Point) :=
  match triangle[0]?, triangle[1]?, triangle[2]? with
  | some p0, some p1, some p2 =>
    some [⟨cvRound (p0.x : ℚ), cvRound (p0.y : ℚ)⟩, ⟨cvRound (p1.x : ℚ), cvRound (p1.y : ℚ)⟩,
      ⟨cvRound (p2.x : ℚ), cvRound (p2.y : ℚ)⟩]
  | _, _, _ => none

/-- One iteration of the loop of `paint_triangles`: triangle `i` is filled with the
value `i + 1`. -/
def paint_triangles_body (filled : List Point → Nat → Nat → Bool)
    (triangles : List (List Point)) (img : MatOf Int) (i : Nat) : Option (MatOf Int) :=
  match roundedPoly (triangles.getD i []) with
  | some poly => some (fillConvexPoly filled img poly ((i : Int) + 1))
  | none => none

/-- The function `paint_triangles`. -/
def paint_triangles (filled : List Point → Nat → Nat → Bool) (img : MatOf Int)
    (triangles : List (List Point)) : Option (MatOf Int) :=
  (List.range triangles.length).foldlM (paint_triangles_body filled triangles) img

/-- The filled region of triangle `i` contains the pixel `(x, y)`. -/
def covers (filled : List Point → Nat → Nat → Bool) (triangles : List (List Point))
    (i y x : Nat) : Prop :=
  ∃ poly, roundedPoly (triangles.getD i []) = some poly ∧ filled poly y x = true

/-! ## `morph_points` with the rounding of `float` and `double` (algo.cpp, lines 55-56)

The exact embedding above computes `(1 - s) * a + s * b` as one rational. The program
rounds after every operation: `1.0 - s` and the first product are `double` operations,
the second product `s * b` is a `float` operation, the sum is a `double` operation and
the assignment converts to `float`. The definitions below make these roundings explicit
for finite values, in the default rounding mode (to nearest, ties to even). -/

/-- The number of binary digits of `n` (0 for 0); the first argument bounds the number
of halvings and is given as `n` itself. -/
def bitLength : Nat → Nat → Nat
  | 0, _ => 0
  | fuel + 1, n => if n = 0 then 0 else bitLength fuel (n / 2) + 1

/-- The binary exponent of a non-zero rational: the integer `e` with
`2^e <= |v| < 2^(e+1)`. -/
def ilog2 (v : ℚ) : Int :=
  let k : Int := (bitLength v.num.natAbs v.num.natAbs : Int) - (bitLength v.den v.den : Int)
  if (2 : ℚ) ^ k ≤ |v| then k else k - 1

/-- Rounding to the nearest value of a binary floating-point format with `p` significant
bits and exponent range `emin..emax`, ties to the even significand: `v` is divided by the
spacing `q` of the format at `v`, rounded to the nearest integer (ties to even, the
rounding `cvRound` also performs) and multiplied by `q` again. Below `2^emin` the
spacing is that of the subnormal numbers; a result beyond the largest finite number is
an infinity, here `none`. -/
def roundNearestEven (p : Nat) (emin emax : Int) (v : ℚ) : Option ℚ :=
  if v = 0 then some 0
  else
    let e := max (ilog2 v) emin
    let q : ℚ := 2 ^ (e - ((p : Int) - 1))
    let r := (cvRound (v / q) : ℚ) * q
    if |r| < 2 ^ (emax + 1) then some r else none

/-- Rounding to `float` (binary32). -/
def roundFloat (v : ℚ) : Option ℚ := roundNearestEven 24 (-126) 127 v

/-- Rounding to `double` (binary64). -/
def roundDouble (v : ℚ) : Option ℚ := roundNearestEven 53 (-1022) 1023 v

/-- The right-hand side of line 55 (and of line 56) with its roundings: the value stored
in the `float` coordinate for the ratio `s` and the source coordinates `x1`, `x2`. -/
def morph_points_coord (s x1 x2 : ℚ) : Option ℚ := do
  let t1 ← roundDouble (1 - s)
  let t2 ← roundDouble (t1 * x1)
  let t3 ← roundFloat (s * x2)
  let t4 ← roundDouble (t2 + t3)
  roundFloat t4

/-- One iteration of the loop of `morph_points`, with the roundings. -/
def morph_points_body_rounded (s : ℚ) (st : MorphPointsArgs) (i : Nat) :
    Option MorphPointsArgs := do
  let p1 := st.srcPts1.getD i default
  let p2 := st.srcPts2.getD i default
  let x ← morph_points_coord s p1.x p2.x
  let y ← morph_points_coord s p1.y p2.y
  some { st with dstPts := st.dstPts.set i ⟨x, y⟩ }

/-- The function `morph_points`, with the roundings of lines 55-56. -/
def morph_points_rounded (st : MorphPointsArgs) (s : ℚ) : Option MorphPointsArgs :=
  if st.srcPts1.length = st.srcPts2.length then
    let numPts := st.srcPts1.length
    let st := { st with dstPts := resize st.dstPts numPts }
    (List.range numPts).foldlM (morph_points_body_rounded s) st
  else none

/-- The point has `float` coordinates: rounding to `float` leaves them as they are. -/
def isFloatPoint (p : Point2f) : Prop :=
  roundFloat p.x = some p.x ∧ roundFloat p.y = some p.y

instance (p : Point2f) : Decidable (isFloatPoint p) := by
  unfold isFloatPoint
  infer_instance

/-! # Theorems -/

/-! ## Lemmas on `morph_points` -/

theorem length_resize {α : Type} [Inhabited α] (v : List α) (n : Nat) :
    (resize v n).length = n := by
  simp only [resize, List.length_append, List.length_take, List.length_replicate]
  omega

/-- Loop invariant of `morph_points`: after `n` iterations the sources are untouched,
the length of `dstPts` is unchanged, the first `n` entries hold the interpolated points
and the others are still those of the start. -/
theorem morph_points_loop (s : ℚ) (A B D : List Point2f) (n : Nat)
    (hA : n ≤ A.length) (hB : n ≤ B.length) (hD : n ≤ D.length) :
    ∃ C, (List.range n).foldl (morph_points_body s) ⟨A, B, D⟩ = ⟨A, B, C⟩ ∧
      C.length = D.length ∧
      (∀ i, i < n → C[i]? = some (lerpPoint s (A.getD i default) (B.getD i default))) ∧
      (∀ i, n ≤ i → C[i]? = D[i]?) := by
  induction n with
  | zero => exact ⟨D, by simp, rfl, by simp, by simp⟩
  | succ n ih =>
    obtain ⟨C, hC, hlen, hlo, hhi⟩ := ih (by omega) (by omega) (by omega)
    refine ⟨C.set n (lerpPoint s (A.getD n default) (B.getD n default)), ?_, ?_, ?_, ?_⟩
    · rw [List.range_succ, List.foldl_append, hC]
      simp [morph_points_body, lerpPoint]
    · simp [hlen]
    · intro i hi
      by_cases hin : i = n
      · subst hin
        rw [List.getElem?_set_self]
        omega
      · rw [List.getElem?_set_ne (by omega)]
        exact hlo i (by omega)
    · intro i hi
      rw [List.getElem?_set_ne (by omega)]
      exact hhi i (by omega)

/-- Closed form of `morph_points` on equal-length inputs: the sources come back as they
were and `dstPts` is the pointwise interpolation, whatever `dstPts` held before. -/
theorem morph_points_eq (A B D : List Point2f) (s : ℚ) (h : A.length = B.length) :
    morph_points ⟨A, B, D⟩ s = some ⟨A, B, List.zipWith (lerpPoint s) A B⟩ := by
  obtain ⟨C, hC, hlen, hlo, -⟩ :=
    morph_points_loop s A B (resize D A.length) A.length le_rfl (by omega)
      (by rw [length_resize])
  rw [length_resize] at hlen
  have hCz : C = List.zipWith (lerpPoint s) A B := by
    apply List.ext_getElem?
    intro i
    by_cases hi : i < A.length
    · rw [hlo i hi, List.getElem?_zipWith]
      have h1 : A[i]? = some (A.getD i default) := by
        rw [List.getD_eq_getElem?_getD, List.getElem?_eq_getElem hi]; rfl
      have h2 : B[i]? = some (B.getD i default) := by
        rw [List.getD_eq_getElem?_getD, List.getElem?_eq_getElem (by omega)]; rfl
      rw [h1, h2]
    · rw [List.getElem?_eq_none (by omega), List.getElem?_eq_none]
      simp only [List.length_zipWith]
      omega
  simp only [morph_points, h, if_true]
  rw [← h, hC, hCz]

theorem zipWith_lerp_zero (A B : List Point2f) (h : A.length = B.length) :
    List.zipWith (lerpPoint 0) A B = A := by
  induction A generalizing B with
  | nil => simp
  | cons a A ih =>
    cases B with
    | nil => simp at h
    | cons b B =>
      simp only [List.length_cons, add_left_inj] at h
      simp [lerpPoint, ih B h]

theorem zipWith_lerp_one (A B : List Point2f) (h : A.length = B.length) :
    List.zipWith (lerpPoint 1) A B = B := by
  induction A generalizing B with
  | nil => cases B with
    | nil => rfl
    | cons b B => simp at h
  | cons a A ih =>
    cases B with
    | nil => simp at h
    | cons b B =>
      simp only [List.length_cons, add_left_inj] at h
      simp [lerpPoint, ih B h]

theorem lerpPoint_self (r : ℚ) (a : Point2f) : lerpPoint r a a = a := by
  have hx : (1 - r) * a.x + r * a.x = a.x := by ring
  have hy : (1 - r) * a.y + r * a.y = a.y := by ring
  simp [lerpPoint, hx, hy]

theorem zipWith_lerp_self (A : List Point2f) (r : ℚ) :
    List.zipWith (lerpPoint r) A A = A := by
  induction A with
  | nil => rfl
  | cons a A ih => rw [List.zipWith_cons_cons, ih, lerpPoint_self]

/-! ## Claims on `morph_points` -/

/-- C1: for point sets `A`, `B` of equal length `N` and every ratio `s`, `morph_points`
succeeds, returns `A` and `B` unchanged, and its output `C` has length exactly `N` with
`C[i].x = (1-s)*A[i].x + s*B[i].x` and `C[i].y = (1-s)*A[i].y + s*B[i].y` for every
`i < N`, whatever the output vector held before. -/
theorem morph_points_contract (A B D : List Point2f) (s : ℚ) (h : A.length = B.length) :
    ∃ C, morph_points ⟨A, B, D⟩ s = some ⟨A, B, C⟩ ∧ C.length = A.length ∧
      ∀ (i : Nat) (hA : i < A.length) (hB : i < B.length) (hC : i < C.length),
        C[i].x = (1 - s) * A[i].x + s * B[i].x ∧
        C[i].y = (1 - s) * A[i].y + s * B[i].y := by
  refine ⟨List.zipWith (lerpPoint s) A B, morph_points_eq A B D s h, ?_, ?_⟩
  · simp [h]
  · intro i hA hB hC
    simp [lerpPoint]

theorem morph_points_contract_witness :
    ([⟨0, 0⟩, ⟨1, 2⟩] : List Point2f).length = ([⟨4, 4⟩, ⟨3, 6⟩] : List Point2f).length ∧
    ∃ C, morph_points ⟨[⟨0, 0⟩, ⟨1, 2⟩], [⟨4, 4⟩, ⟨3, 6⟩], [⟨9, 9⟩]⟩ (1 / 2)
        = some ⟨[⟨0, 0⟩, ⟨1, 2⟩], [⟨4, 4⟩, ⟨3, 6⟩], C⟩ ∧
      C.length = 2 ∧ C[1]? = some ⟨2, 4⟩ := by
  refine ⟨by decide, ?_⟩
  obtain ⟨C, hrun, hlen, hpts⟩ :=
    morph_points_contract [⟨0, 0⟩, ⟨1, 2⟩] [⟨4, 4⟩, ⟨3, 6⟩] [⟨9, 9⟩] (1 / 2) (by decide)
  have h1 : 1 < C.length := by rw [hlen]; decide
  obtain ⟨hx, hy⟩ := hpts 1 (by decide) (by decide) h1
  refine ⟨C, hrun, hlen, ?_⟩
  rw [List.getElem?_eq_getElem h1]
  have hx2 : C[1].x = 2 := by rw [hx]; norm_num
  have hy2 : C[1].y = 4 := by rw [hy]; norm_num
  cases hC : C[1] with
  | mk cx cy =>
    rw [hC] at hx2 hy2
    simp only at hx2 hy2
    rw [hx2, hy2]

/-- C2: for equal-length point sets `A` and `B`, interpolating at ratio 0 yields exactly
`A` and at ratio 1 exactly `B` (same length, same order, point for point). -/
theorem morph_points_boundary (A B D : List Point2f) (h : A.length = B.length) :
    morph_points ⟨A, B, D⟩ 0 = some ⟨A, B, A⟩ ∧
    morph_points ⟨A, B, D⟩ 1 = some ⟨A, B, B⟩ := by
  constructor
  · rw [morph_points_eq A B D 0 h, zipWith_lerp_zero A B h]
  · rw [morph_points_eq A B D 1 h, zipWith_lerp_one A B h]

theorem morph_points_boundary_witness :
    morph_points ⟨[⟨0, 0⟩, ⟨1, 2⟩], [⟨4, 4⟩, ⟨3, 6⟩], []⟩ 0
      = some ⟨[⟨0, 0⟩, ⟨1, 2⟩], [⟨4, 4⟩, ⟨3, 6⟩], [⟨0, 0⟩, ⟨1, 2⟩]⟩ ∧
    morph_points ⟨[⟨0, 0⟩, ⟨1, 2⟩], [⟨4, 4⟩, ⟨3, 6⟩], []⟩ 1
      = some ⟨[⟨0, 0⟩, ⟨1, 2⟩], [⟨4, 4⟩, ⟨3, 6⟩], [⟨4, 4⟩, ⟨3, 6⟩]⟩ :=
  morph_points_boundary [⟨0, 0⟩, ⟨1, 2⟩] [⟨4, 4⟩, ⟨3, 6⟩] [] (by decide)

/-! ## Lemmas on matrices and homographies -/

open Matrix

theorem det3_eq_det (m : Mat3) : det3 m = m.det := by
  rw [Matrix.det_fin_three]
  unfold det3
  ring

/-- The inverse OpenCV computes is the inverse of the matrix library (which is also the
zero matrix on a singular matrix). -/
theorem inv_eq_nonsing_inv (m : Mat3) : inv m = m⁻¹ := by
  rw [Matrix.inv_def, Matrix.adjugate_fin_three, ← det3_eq_det]
  unfold inv
  by_cases h : det3 m = 0
  · simp [h]
  · simp only [h, ne_eq, not_false_eq_true, if_true, Ring.inverse_eq_inv']
    ext i j
    fin_cases i <;> fin_cases j <;> simp <;> ring

theorem isUnit_det_of_det3 {m : Mat3} (h : det3 m ≠ 0) : IsUnit m.det := by
  rw [← det3_eq_det]
  exact isUnit_iff_ne_zero.mpr h

theorem mul_inv_of_det3 {m : Mat3} (h : det3 m ≠ 0) : m * inv m = 1 := by
  rw [inv_eq_nonsing_inv]
  exact Matrix.mul_nonsing_inv m (isUnit_det_of_det3 h)

theorem inv_mul_of_det3 {m : Mat3} (h : det3 m ≠ 0) : inv m * m = 1 := by
  rw [inv_eq_nonsing_inv]
  exact Matrix.nonsing_inv_mul m (isUnit_det_of_det3 h)

theorem det3_mul (a b : Mat3) : det3 (a * b) = det3 a * det3 b := by
  simp only [det3_eq_det, Matrix.det_mul]

theorem det3_inv {m : Mat3} (h : det3 m ≠ 0) : det3 (inv m) ≠ 0 := by
  intro h0
  have h1 : det3 (m * inv m) = 1 := by
    rw [mul_inv_of_det3 h, det3_eq_det, Matrix.det_one]
  rw [det3_mul, h0, mul_zero] at h1
  exact zero_ne_one h1

theorem points_to_homogenous_mat_three (p0 p1 p2 : Point)
    (h : 3 = [p0, p1, p2].length) :
    (points_to_homogenous_mat [p0, p1, p2]).submatrix id (Fin.cast h) = homMat p0 p1 p2 := by
  ext i j
  fin_cases i <;> fin_cases j <;> simp [points_to_homogenous_mat, homMat]

theorem solve_homography_three (p0 p1 p2 q0 q1 q2 : Point) :
    solve_homography [p0, p1, p2] [q0, q1, q2]
      = some (homMat q0 q1 q2 * inv (homMat p0 p1 p2)) := by
  unfold solve_homography
  have h : [p0, p1, p2].length = [q0, q1, q2].length := rfl
  have h3 : [p0, p1, p2].length = 3 := rfl
  rw [dif_pos h, dif_pos h3, points_to_homogenous_mat_three,
    points_to_homogenous_mat_three]

theorem det3_homMat (p0 p1 p2 : Point) :
    det3 (homMat p0 p1 p2)
      = (((p1.x - p0.x) * (p2.y - p0.y) - (p2.x - p0.x) * (p1.y - p0.y) : Int) : ℚ) := by
  simp [det3, homMat]
  ring

theorem det3_homMat_ne_zero {p0 p1 p2 : Point} (h : ¬ collinear p0 p1 p2) :
    det3 (homMat p0 p1 p2) ≠ 0 := by
  rw [det3_homMat]
  exact_mod_cast h

theorem mulVec_homog_eq (m : Mat3) (x y : ℚ) (i : Fin 3) :
    (m *ᵥ homog x y) i = m i 0 * x + m i 1 * y + m i 2 := by
  simp [Matrix.mulVec, Matrix.dotProduct, Fin.sum_univ_three, homog]

/-- The columns of `homMat` are the homogeneous coordinates of the three points. -/
theorem homMat_mulVec_single (p0 p1 p2 : Point) :
    homMat p0 p1 p2 *ᵥ ![1, 0, 0] = homog p0.x p0.y ∧
    homMat p0 p1 p2 *ᵥ ![0, 1, 0] = homog p1.x p1.y ∧
    homMat p0 p1 p2 *ᵥ ![0, 0, 1] = homog p2.x p2.y := by
  refine ⟨?_, ?_, ?_⟩ <;> ext i <;> fin_cases i <;>
    simp [Matrix.mulVec, Matrix.dotProduct, Fin.sum_univ_three, homMat, homog]

/-- A matrix `h` with `h * S = D` sends each column of `S` to the same column of `D`. -/
theorem mulVec_vertices_of_mul_eq (h : Mat3) (p0 p1 p2 q0 q1 q2 : Point)
    (hmul : h * homMat p0 p1 p2 = homMat q0 q1 q2) :
    h *ᵥ homog p0.x p0.y = homog q0.x q0.y ∧
    h *ᵥ homog p1.x p1.y = homog q1.x q1.y ∧
    h *ᵥ homog p2.x p2.y = homog q2.x q2.y := by
  obtain ⟨hp0, hp1, hp2⟩ := homMat_mulVec_single p0 p1 p2
  obtain ⟨hq0, hq1, hq2⟩ := homMat_mulVec_single q0 q1 q2
  refine ⟨?_, ?_, ?_⟩
  · rw [← hp0, Matrix.mulVec_mulVec, hmul, hq0]
  · rw [← hp1, Matrix.mulVec_mulVec, hmul, hq1]
  · rw [← hp2, Matrix.mulVec_mulVec, hmul, hq2]

/-- The solved homography times `Hom(src)` is `Hom(dst)` when `src` is not collinear. -/
theorem solved_mul_homMat (p0 p1 p2 q0 q1 q2 : Point) (h : ¬ collinear p0 p1 p2) :
    homMat q0 q1 q2 * inv (homMat p0 p1 p2) * homMat p0 p1 p2 = homMat q0 q1 q2 := by
  rw [Matrix.mul_assoc, inv_mul_of_det3 (det3_homMat_ne_zero h), Matrix.mul_one]

/-- The inverse of the solved homography is the homography solved the other way round. -/
theorem inv_solved (p0 p1 p2 q0 q1 q2 : Point)
    (hs : ¬ collinear p0 p1 p2) (hd : ¬ collinear q0 q1 q2) :
    inv (homMat q0 q1 q2 * inv (homMat p0 p1 p2))
      = homMat p0 p1 p2 * inv (homMat q0 q1 q2) := by
  rw [inv_eq_nonsing_inv]
  apply Matrix.inv_eq_right_inv
  calc homMat q0 q1 q2 * inv (homMat p0 p1 p2) * (homMat p0 p1 p2 * inv (homMat q0 q1 q2))
      = homMat q0 q1 q2 * (inv (homMat p0 p1 p2) * homMat p0 p1 p2)
          * inv (homMat q0 q1 q2) := by simp only [Matrix.mul_assoc]
    _ = 1 := by
      rw [inv_mul_of_det3 (det3_homMat_ne_zero hs), Matrix.mul_one,
        mul_inv_of_det3 (det3_homMat_ne_zero hd)]

theorem det3_solved_ne_zero (p0 p1 p2 q0 q1 q2 : Point)
    (hs : ¬ collinear p0 p1 p2) (hd : ¬ collinear q0 q1 q2) :
    det3 (homMat q0 q1 q2 * inv (homMat p0 p1 p2)) ≠ 0 := by
  rw [det3_mul]
  exact mul_ne_zero (det3_homMat_ne_zero hd) (det3_inv (det3_homMat_ne_zero hs))

/-! ## Claims on `solve_homography` and `morph_homography` -/

/-- C4: for a source triangle whose three points are not collinear and any destination
triangle, the single-triangle `solve_homography` returns `H = Hom(dst) * Hom(src)^-1`,
where `Hom(src)^-1` is a two-sided inverse of `Hom(src)`, and `H` sends the homogeneous
coordinates `(x, y, 1)` of each source vertex to those of the destination vertex. -/
theorem solve_homography_maps_vertices (p0 p1 p2 q0 q1 q2 : Point)
    (h : ¬ collinear p0 p1 p2) :
    ∃ H, solve_homography [p0, p1, p2] [q0, q1, q2] = some H ∧
      H = homMat q0 q1 q2 * (homMat p0 p1 p2)⁻¹ ∧
      homMat p0 p1 p2 * (homMat p0 p1 p2)⁻¹ = 1 ∧
      (homMat p0 p1 p2)⁻¹ * homMat p0 p1 p2 = 1 ∧
      H *ᵥ homog p0.x p0.y = homog q0.x q0.y ∧
      H *ᵥ homog p1.x p1.y = homog q1.x q1.y ∧
      H *ᵥ homog p2.x p2.y = homog q2.x q2.y := by
  have hdet := det3_homMat_ne_zero h
  refine ⟨_, solve_homography_three p0 p1 p2 q0 q1 q2, ?_, ?_, ?_, ?_⟩
  · rw [inv_eq_nonsing_inv]
  · rw [← inv_eq_nonsing_inv]; exact mul_inv_of_det3 hdet
  · rw [← inv_eq_nonsing_inv]; exact inv_mul_of_det3 hdet
  · exact mulVec_vertices_of_mul_eq _ p0 p1 p2 q0 q1 q2
      (solved_mul_homMat p0 p1 p2 q0 q1 q2 h)

theorem solve_homography_maps_vertices_witness :
    ∃ H, solve_homography [⟨0, 0⟩, ⟨1, 0⟩, ⟨0, 1⟩] [⟨1, 1⟩, ⟨3, 1⟩, ⟨1, 4⟩] = some H ∧
      H = homMat ⟨1, 1⟩ ⟨3, 1⟩ ⟨1, 4⟩ * (homMat ⟨0, 0⟩ ⟨1, 0⟩ ⟨0, 1⟩)⁻¹ ∧
      homMat ⟨0, 0⟩ ⟨1, 0⟩ ⟨0, 1⟩ * (homMat ⟨0, 0⟩ ⟨1, 0⟩ ⟨0, 1⟩)⁻¹ = 1 ∧
      (homMat ⟨0, 0⟩ ⟨1, 0⟩ ⟨0, 1⟩)⁻¹ * homMat ⟨0, 0⟩ ⟨1, 0⟩ ⟨0, 1⟩ = 1 ∧
      H *ᵥ homog (0 : Int) (0 : Int) = homog (1 : Int) (1 : Int) ∧
      H *ᵥ homog (1 : Int) (0 : Int) = homog (3 : Int) (1 : Int) ∧
      H *ᵥ homog (0 : Int) (1 : Int) = homog (1 : Int) (4 : Int) :=
  solve_homography_maps_vertices ⟨0, 0⟩ ⟨1, 0⟩ ⟨0, 1⟩ ⟨1, 1⟩ ⟨3, 1⟩ ⟨1, 4⟩ (by decide)

/-- C5: for two triangles neither of which is collinear, `solve_homography(src, dst)`
returns a matrix `H` with non-zero determinant, the inverse `inv H` that OpenCV
computes satisfies `H * inv H = inv H * H = Identity`, and `inv H` is the matrix that
`solve_homography(dst, src)` returns. -/
theorem solve_homography_round_trip (p0 p1 p2 q0 q1 q2 : Point)
    (hs : ¬ collinear p0 p1 p2) (hd : ¬ collinear q0 q1 q2) :
    ∃ H G, solve_homography [p0, p1, p2] [q0, q1, q2] = some H ∧
      solve_homography [q0, q1, q2] [p0, p1, p2] = some G ∧
      det3 H ≠ 0 ∧ H.det ≠ 0 ∧ H * inv H = 1 ∧ inv H * H = 1 ∧ inv H = G := by
  have hdet := det3_solved_ne_zero p0 p1 p2 q0 q1 q2 hs hd
  refine ⟨_, _, solve_homography_three p0 p1 p2 q0 q1 q2,
    solve_homography_three q0 q1 q2 p0 p1 p2, hdet, ?_, mul_inv_of_det3 hdet,
    inv_mul_of_det3 hdet, inv_solved p0 p1 p2 q0 q1 q2 hs hd⟩
  rw [← det3_eq_det]
  exact hdet

theorem solve_homography_round_trip_witness :
    ∃ H G, solve_homography [⟨0, 0⟩, ⟨1, 0⟩, ⟨0, 1⟩] [⟨1, 1⟩, ⟨3, 1⟩, ⟨1, 4⟩] = some H ∧
      solve_homography [⟨1, 1⟩, ⟨3, 1⟩, ⟨1, 4⟩] [⟨0, 0⟩, ⟨1, 0⟩, ⟨0, 1⟩] = some G ∧
      det3 H ≠ 0 ∧ H.det ≠ 0 ∧ H * inv H = 1 ∧ inv H * H = 1 ∧ inv H = G :=
  solve_homography_round_trip ⟨0, 0⟩ ⟨1, 0⟩ ⟨0, 1⟩ ⟨1, 1⟩ ⟨3, 1⟩ ⟨1, 4⟩
    (by decide) (by decide)

/-- C6: for every invertible 3x3 homography `H` (non-zero determinant, so that `H^-1`
is a two-sided inverse), `morph_homography` returns `(Identity, H^-1)` at ratio 0 and
`(H, Identity)` at ratio 1, and at every ratio it returns
`(Identity*(1-ratio) + H*ratio, Identity*ratio + H^-1*(1-ratio))`. -/
theorem morph_homography_boundary (H : Mat3) (h : H.det ≠ 0) :
    (H * H⁻¹ = 1 ∧ H⁻¹ * H = 1) ∧
    morph_homography H 0 = (1, H⁻¹) ∧
    morph_homography H 1 = (H, 1) ∧
    ∀ ratio : ℚ, morph_homography H ratio
      = ((1 - ratio) • (1 : Mat3) + ratio • H, ratio • (1 : Mat3) + (1 - ratio) • H⁻¹) := by
  have hu : IsUnit H.det := isUnit_iff_ne_zero.mpr h
  refine ⟨⟨Matrix.mul_nonsing_inv H hu, Matrix.nonsing_inv_mul H hu⟩, ?_, ?_, ?_⟩
  · simp [morph_homography, inv_eq_nonsing_inv]
  · simp [morph_homography]
  · intro ratio
    simp [morph_homography, inv_eq_nonsing_inv]

theorem morph_homography_boundary_witness :
    ((!![2, 0, 1; 0, 3, 1; 0, 0, 1] : Mat3) * (!![2, 0, 1; 0, 3, 1; 0, 0, 1] : Mat3)⁻¹ = 1 ∧
      (!![2, 0, 1; 0, 3, 1; 0, 0, 1] : Mat3)⁻¹ * (!![2, 0, 1; 0, 3, 1; 0, 0, 1] : Mat3) = 1) ∧
    morph_homography !![2, 0, 1; 0, 3, 1; 0, 0, 1] 0
      = (1, (!![2, 0, 1; 0, 3, 1; 0, 0, 1] : Mat3)⁻¹) ∧
    morph_homography !![2, 0, 1; 0, 3, 1; 0, 0, 1] 1 = (!![2, 0, 1; 0, 3, 1; 0, 0, 1], 1) ∧
    ∀ ratio : ℚ, morph_homography !![2, 0, 1; 0, 3, 1; 0, 0, 1] ratio
      = ((1 - ratio) • (1 : Mat3) + ratio • (!![2, 0, 1; 0, 3, 1; 0, 0, 1] : Mat3),
         ratio • (1 : Mat3) + (1 - ratio) • (!![2, 0, 1; 0, 3, 1; 0, 0, 1] : Mat3)⁻¹) :=
  morph_homography_boundary !![2, 0, 1; 0, 3, 1; 0, 0, 1]
    (by rw [← det3_eq_det]; norm_num [det3, Matrix.vecHead, Matrix.vecTail])

/-- Blending a transform `h` that sends `a` to `b` with the identity sends `a` to the
interpolated point. -/
theorem blend_mulVec (h : Mat3) (r ax ay bx bz : ℚ)
    (hab : h *ᵥ homog ax ay = homog bx bz) :
    ((1 - r) • (1 : Mat3) + r • h) *ᵥ homog ax ay
      = homog ((1 - r) * ax + r * bx) ((1 - r) * ay + r * bz) := by
  rw [Matrix.add_mulVec, Matrix.smul_mulVec_assoc, Matrix.smul_mulVec_assoc,
    Matrix.one_mulVec, hab]
  ext i
  fin_cases i <;> simp [homog]

/-- The same with the weights exchanged, as `MorphHom2` has them. -/
theorem blend_mulVec_swap (g : Mat3) (r ax ay bx bz : ℚ)
    (hba : g *ᵥ homog bx bz = homog ax ay) :
    (r • (1 : Mat3) + (1 - r) • g) *ᵥ homog bx bz
      = homog ((1 - r) * ax + r * bx) ((1 - r) * ay + r * bz) := by
  rw [Matrix.add_mulVec, Matrix.smul_mulVec_assoc, Matrix.smul_mulVec_assoc,
    Matrix.one_mulVec, hba]
  ext i
  fin_cases i <;> simp [homog] <;> ring

/-- C7: for non-collinear triangles `a` and `b` and every ratio `r`, with
`H = solve_homography(a, b)` and `(H1, H2) = morph_homography(H, r)`, the transform
`H1` sends each vertex `a[i]` and the transform `H2` sends each vertex `b[i]` to the
same intermediate point `(1-r)*a[i] + r*b[i]` (in homogeneous coordinates, third
coordinate 1). -/
theorem morph_homography_intermediate (a0 a1 a2 b0 b1 b2 : Point) (r : ℚ)
    (ha : ¬ collinear a0 a1 a2) (hb : ¬ collinear b0 b1 b2) :
    ∃ H, solve_homography [a0, a1, a2] [b0, b1, b2] = some H ∧
      ((morph_homography H r).1 *ᵥ homog a0.x a0.y
          = homog ((1 - r) * a0.x + r * b0.x) ((1 - r) * a0.y + r * b0.y) ∧
        (morph_homography H r).1 *ᵥ homog a1.x a1.y
          = homog ((1 - r) * a1.x + r * b1.x) ((1 - r) * a1.y + r * b1.y) ∧
        (morph_homography H r).1 *ᵥ homog a2.x a2.y
          = homog ((1 - r) * a2.x + r * b2.x) ((1 - r) * a2.y + r * b2.y)) ∧
      ((morph_homography H r).2 *ᵥ homog b0.x b0.y
          = homog ((1 - r) * a0.x + r * b0.x) ((1 - r) * a0.y + r * b0.y) ∧
        (morph_homography H r).2 *ᵥ homog b1.x b1.y
          = homog ((1 - r) * a1.x + r * b1.x) ((1 - r) * a1.y + r * b1.y) ∧
        (morph_homography H r).2 *ᵥ homog b2.x b2.y
          = homog ((1 - r) * a2.x + r * b2.x) ((1 - r) * a2.y + r * b2.y)) := by
  refine ⟨_, solve_homography_three a0 a1 a2 b0 b1 b2, ?_, ?_⟩
  · obtain ⟨h0, h1, h2⟩ := mulVec_vertices_of_mul_eq _ a0 a1 a2 b0 b1 b2
      (solved_mul_homMat a0 a1 a2 b0 b1 b2 ha)
    exact ⟨blend_mulVec _ r _ _ _ _ h0, blend_mulVec _ r _ _ _ _ h1,
      blend_mulVec _ r _ _ _ _ h2⟩
  · have hinv := inv_solved a0 a1 a2 b0 b1 b2 ha hb
    obtain ⟨h0, h1, h2⟩ := mulVec_vertices_of_mul_eq _ b0 b1 b2 a0 a1 a2
      (solved_mul_homMat b0 b1 b2 a0 a1 a2 hb)
    simp only [morph_homography, hinv]
    exact ⟨blend_mulVec_swap _ r _ _ _ _ h0, blend_mulVec_swap _ r _ _ _ _ h1,
      blend_mulVec_swap _ r _ _ _ _ h2⟩

theorem morph_homography_intermediate_witness :
    ¬ collinear ⟨0, 0⟩ ⟨1, 0⟩ ⟨0, 1⟩ ∧ ¬ collinear ⟨1, 1⟩ ⟨3, 1⟩ ⟨1, 4⟩ ∧
    ∃ H, solve_homography [⟨0, 0⟩, ⟨1, 0⟩, ⟨0, 1⟩] [⟨1, 1⟩, ⟨3, 1⟩, ⟨1, 4⟩] = some H ∧
      (morph_homography H (1 / 4)).1 *ᵥ homog 1 0 = homog (3 / 2) (1 / 4) ∧
      (morph_homography H (1 / 4)).2 *ᵥ homog 3 1 = homog (3 / 2) (1 / 4) := by
  refine ⟨by decide, by decide, ?_⟩
  obtain ⟨H, hH, ⟨-, h1, -⟩, ⟨-, g1, -⟩⟩ :=
    morph_homography_intermediate ⟨0, 0⟩ ⟨1, 0⟩ ⟨0, 1⟩ ⟨1, 1⟩ ⟨3, 1⟩ ⟨1, 4⟩ (1 / 4)
      (by decide) (by decide)
  refine ⟨H, hH, ?_, ?_⟩
  · have e : homog (3 / 2) (1 / 4)
        = homog ((1 - 1 / 4) * ((1 : Int) : ℚ) + 1 / 4 * ((3 : Int) : ℚ))
            ((1 - 1 / 4) * ((0 : Int) : ℚ) + 1 / 4 * ((1 : Int) : ℚ)) := by
      norm_num
    rw [e]
    simpa using h1
  · have e : homog (3 / 2) (1 / 4)
        = homog ((1 - 1 / 4) * ((1 : Int) : ℚ) + 1 / 4 * ((3 : Int) : ℚ))
            ((1 - 1 / 4) * ((0 : Int) : ℚ) + 1 / 4 * ((1 : Int) : ℚ)) := by
      norm_num
    rw [e]
    simpa using g1

/-! ## Lemmas on `create_map` -/

/-- The value `create_map` writes at a pixel with identifier `id`, when `id - 1` is
non-negative and inside the bounds of the list of inverses. -/
theorem create_map_pixel_pos (triangleMap : MatOf Int) (invs : List Mat3) (y x : Nat)
    (maps : MatOf ℚ × MatOf ℚ) (G : Mat3)
    (hpos : 1 ≤ triangleMap.data y x)
    (hG : invs[(triangleMap.data y x - 1).toNat]? = some G) :
    create_map_pixel triangleMap invs y x maps
      = some (maps.1.set y x (warpCoord G x y).1, maps.2.set y x (warpCoord G x y).2) := by
  have h : triangleMap.data y x - 1 ≥ 0 := by omega
  simp only [create_map_pixel, h, if_true, hG, warpCoord, mulVec_homog_eq]

theorem create_map_pixel_nonpos (triangleMap : MatOf Int) (invs : List Mat3) (y x : Nat)
    (maps : MatOf ℚ × MatOf ℚ) (hle : triangleMap.data y x ≤ 0) :
    create_map_pixel triangleMap invs y x maps
      = some (maps.1.set y x (x : ℚ), maps.2.set y x (y : ℚ)) := by
  have h : ¬ (triangleMap.data y x - 1 ≥ 0) := by omega
  simp only [create_map_pixel, h, if_false]

/-- A loop over `0 .. n-1` whose step at `i` assigns the value `val i` at the position
`pos i` of both fields, for an injective `pos`: dimensions are kept, the visited
positions hold their values and all other positions are untouched. -/
theorem set_loop_spec (step : MatOf ℚ × MatOf ℚ → Nat → Option (MatOf ℚ × MatOf ℚ))
    (val : Nat → ℚ × ℚ) (y : Nat) (bound : Nat)
    (hstep : ∀ x st, x < bound →
      step st x = some (st.1.set y x (val x).1, st.2.set y x (val x).2))
    (maps : MatOf ℚ × MatOf ℚ) (n : Nat) (hn : n ≤ bound) :
    ∃ maps', (List.range n).foldlM step maps = some maps' ∧
      (maps'.1.rows = maps.1.rows ∧ maps'.1.cols = maps.1.cols ∧
        maps'.2.rows = maps.2.rows ∧ maps'.2.cols = maps.2.cols) ∧
      (∀ x, x < n → maps'.1.data y x = (val x).1 ∧ maps'.2.data y x = (val x).2) ∧
      (∀ y' x', (y' ≠ y ∨ n ≤ x') →
        maps'.1.data y' x' = maps.1.data y' x' ∧ maps'.2.data y' x' = maps.2.data y' x') := by
  induction n with
  | zero => exact ⟨maps, by simp, ⟨rfl, rfl, rfl, rfl⟩, by simp, by simp⟩
  | succ n ih =>
    obtain ⟨m, hm, hdim, hlo, hhi⟩ := ih (by omega)
    refine ⟨(m.1.set y n (val n).1, m.2.set y n (val n).2), ?_, ?_, ?_, ?_⟩
    · rw [List.range_succ, List.foldlM_append, hm]
      simp [hstep n m (by omega)]
    · simpa [MatOf.set] using hdim
    · intro x hx
      by_cases hxn : x = n
      · subst hxn
        simp [MatOf.set]
      · have := hlo x (by omega)
        simp [MatOf.set, hxn, this]
    · intro y' x' h
      have hne : ¬ (y' = y ∧ x' = n) := by
        rintro ⟨h1, h2⟩
        rcases h with h | h
        · exact h h1
        · omega
      have := hhi y' x' (by rcases h with h | h; exact Or.inl h; exact Or.inr (by omega))
      simp [MatOf.set, hne, this]

/-- The outer loop of `create_map`, given that every row loop fills its row. -/
theorem rows_loop_spec (step : MatOf ℚ × MatOf ℚ → Nat → Option (MatOf ℚ × MatOf ℚ))
    (val : Nat → Nat → ℚ × ℚ) (cols bound : Nat)
    (hstep : ∀ y st, y < bound → ∃ st', step st y = some st' ∧
      (st'.1.rows = st.1.rows ∧ st'.1.cols = st.1.cols ∧
        st'.2.rows = st.2.rows ∧ st'.2.cols = st.2.cols) ∧
      (∀ x, x < cols → st'.1.data y x = (val y x).1 ∧ st'.2.data y x = (val y x).2) ∧
      (∀ y' x', (y' ≠ y ∨ cols ≤ x') →
        st'.1.data y' x' = st.1.data y' x' ∧ st'.2.data y' x' = st.2.data y' x'))
    (maps : MatOf ℚ × MatOf ℚ) (n : Nat) (hn : n ≤ bound) :
    ∃ maps', (List.range n).foldlM step maps = some maps' ∧
      (maps'.1.rows = maps.1.rows ∧ maps'.1.cols = maps.1.cols ∧
        maps'.2.rows = maps.2.rows ∧ maps'.2.cols = maps.2.cols) ∧
      (∀ y x, y < n → x < cols →
        maps'.1.data y x = (val y x).1 ∧ maps'.2.data y x = (val y x).2) := by
  induction n with
  | zero => exact ⟨maps, by simp, ⟨rfl, rfl, rfl, rfl⟩, by simp⟩
  | succ n ih =>
    obtain ⟨m, hm, hdim, hlo⟩ := ih (by omega)
    obtain ⟨m', hm', hdim', hrow, hother⟩ := hstep n m (by omega)
    refine ⟨m', ?_, ?_, ?_⟩
    · rw [List.range_succ, List.foldlM_append, hm]
      simp [hm']
    · obtain ⟨a1, a2, a3, a4⟩ := hdim
      obtain ⟨b1, b2, b3, b4⟩ := hdim'
      exact ⟨b1.trans a1, b2.trans a2, b3.trans a3, b4.trans a4⟩
    · intro y x hy hx
      by_cases hyn : y = n
      · subst hyn
        exact hrow x hx
      · have h1 := hother y x (Or.inl hyn)
        have h2 := hlo y x (by omega) hx
        exact ⟨h1.1.trans h2.1, h1.2.trans h2.2⟩

/-- The pair a pixel with identifier `id` receives when `0 ≤ id ≤ homMatrices.length`. -/
theorem create_map_pixel_valid (triangleMap : MatOf Int) (homMatrices : List Mat3)
    (y x : Nat) (st : MatOf ℚ × MatOf ℚ)
    (h0 : 0 ≤ triangleMap.data y x) (hn : triangleMap.data y x ≤ homMatrices.length) :
    ∃ v : ℚ × ℚ,
      create_map_pixel triangleMap (homMatrices.map inv) y x st
        = some (st.1.set y x v.1, st.2.set y x v.2) ∧
      (triangleMap.data y x = 0 → v = ((x : ℚ), (y : ℚ))) ∧
      (triangleMap.data y x ≠ 0 → ∃ H,
        homMatrices[(triangleMap.data y x - 1).toNat]? = some H ∧ v = warpCoord H⁻¹ x y) := by
  by_cases hz : triangleMap.data y x = 0
  · refine ⟨((x : ℚ), (y : ℚ)), ?_, fun _ => rfl, fun hne => absurd hz hne⟩
    exact create_map_pixel_nonpos triangleMap _ y x st (by omega)
  · have hlt : (triangleMap.data y x - 1).toNat < homMatrices.length := by omega
    have hH : homMatrices[(triangleMap.data y x - 1).toNat]?
        = some (homMatrices[(triangleMap.data y x - 1).toNat]) :=
      List.getElem?_eq_getElem hlt
    refine ⟨warpCoord (inv (homMatrices[(triangleMap.data y x - 1).toNat])) x y, ?_,
      fun h => absurd h hz, fun _ => ⟨_, hH, by rw [inv_eq_nonsing_inv]⟩⟩
    apply create_map_pixel_pos triangleMap _ y x st _ (by omega)
    rw [List.getElem?_map, hH]
    rfl

/-! ## Claim on `create_map` -/

/-- C8: on a triangle-ID map whose values are 0 or a 1-based index into `homographies`,
`create_map` succeeds and returns x- and y-maps of the dimensions of the ID map such
that at every pixel `(x, y)`: if the ID is 0 the maps hold exactly `(x, y)`; otherwise,
with `Hinv` the inverse of `homographies[ID-1]` and `(u, v, w) = Hinv * (x, y, 1)`, the
maps hold `(u/w', v/w')` where `w'` is `w`, or `0.00001` when `w = 0`. The transform
used at a pixel is the one its own ID names, and the earlier content of the two maps
plays no role. -/
theorem create_map_contract (triangleMap : MatOf Int) (homMatrices : List Mat3)
    (mapx0 mapy0 : MatOf ℚ)
    (hid : ∀ y x, y < triangleMap.rows → x < triangleMap.cols →
      0 ≤ triangleMap.data y x ∧ triangleMap.data y x ≤ homMatrices.length) :
    ∃ mapx mapy, create_map triangleMap homMatrices mapx0 mapy0 = some (mapx, mapy) ∧
      (mapx.rows = triangleMap.rows ∧ mapx.cols = triangleMap.cols ∧
        mapy.rows = triangleMap.rows ∧ mapy.cols = triangleMap.cols) ∧
      ∀ y x, y < triangleMap.rows → x < triangleMap.cols →
        (triangleMap.data y x = 0 →
          mapx.data y x = (x : ℚ) ∧ mapy.data y x = (y : ℚ)) ∧
        (triangleMap.data y x ≠ 0 → ∃ H,
          homMatrices[(triangleMap.data y x - 1).toNat]? = some H ∧
          mapx.data y x = (warpCoord H⁻¹ x y).1 ∧
          mapy.data y x = (warpCoord H⁻¹ x y).2) := by
  classical
  -- the value each pixel receives, chosen from `create_map_pixel_valid`
  have hval : ∀ y x, ∃ v : ℚ × ℚ, (y < triangleMap.rows → x < triangleMap.cols →
      (∀ st, create_map_pixel triangleMap (homMatrices.map inv) y x st
        = some (st.1.set y x v.1, st.2.set y x v.2)) ∧
      (triangleMap.data y x = 0 → v = ((x : ℚ), (y : ℚ))) ∧
      (triangleMap.data y x ≠ 0 → ∃ H,
        homMatrices[(triangleMap.data y x - 1).toNat]? = some H ∧
          v = warpCoord H⁻¹ x y)) := by
    intro y x
    by_cases hy : y < triangleMap.rows
    · by_cases hx : x < triangleMap.cols
      · obtain ⟨h0, hn⟩ := hid y x hy hx
        by_cases hz : triangleMap.data y x = 0
        · refine ⟨((x : ℚ), (y : ℚ)), fun _ _ => ⟨fun st => ?_, fun _ => rfl,
            fun hne => absurd hz hne⟩⟩
          exact create_map_pixel_nonpos triangleMap _ y x st (by omega)
        · obtain ⟨v, -, -, hv⟩ :=
            create_map_pixel_valid triangleMap homMatrices y x (mapx0, mapy0) h0 hn
          obtain ⟨H, hH, hvH⟩ := hv hz
          refine ⟨v, fun _ _ => ⟨fun st => ?_, fun h => absurd h hz,
            fun _ => ⟨H, hH, hvH⟩⟩⟩
          obtain ⟨v', hv', -, hw⟩ :=
            create_map_pixel_valid triangleMap homMatrices y x st h0 hn
          obtain ⟨H', hH', hvH'⟩ := hw hz
          rw [hH] at hH'
          cases hH'
          rw [hv', hvH', hvH]
      · exact ⟨(0, 0), fun _ h => absurd h hx⟩
    · exact ⟨(0, 0), fun h => absurd h hy⟩
  choose val hvalspec using hval
  obtain ⟨maps, hmaps, hdim, hpix⟩ :=
    rows_loop_spec
      (fun st y => create_map_row triangleMap (homMatrices.map inv) y st)
      val triangleMap.cols triangleMap.rows
      (fun y st hy =>
        set_loop_spec
          (fun st x => create_map_pixel triangleMap (homMatrices.map inv) y x st)
          (val y) y triangleMap.cols
          (fun x st' hx => (hvalspec y x hy hx).1 st') st triangleMap.cols le_rfl)
      (mapx0.create triangleMap.rows triangleMap.cols,
        mapy0.create triangleMap.rows triangleMap.cols)
      triangleMap.rows le_rfl
  refine ⟨maps.1, maps.2, hmaps, hdim, ?_⟩
  intro y x hy hx
  obtain ⟨hvx, hvy⟩ := hpix y x hy hx
  obtain ⟨-, hzero, hnz⟩ := hvalspec y x hy hx
  refine ⟨fun hz => ?_, fun hne => ?_⟩
  · rw [hvx, hvy, hzero hz]
    exact ⟨rfl, rfl⟩
  · obtain ⟨H, hH, hv⟩ := hnz hne
    exact ⟨H, hH, by rw [hvx, hv], by rw [hvy, hv]⟩

theorem create_map_contract_witness :
    ∃ mapx mapy,
      create_map ⟨1, 2, fun _ x => if x = 0 then 0 else 1⟩ [!![2, 0, 1; 0, 3, 1; 0, 0, 1]]
        ⟨0, 0, fun _ _ => 0⟩ ⟨0, 0, fun _ _ => 0⟩ = some (mapx, mapy) ∧
      (mapx.rows = 1 ∧ mapx.cols = 2 ∧ mapy.rows = 1 ∧ mapy.cols = 2) ∧
      (mapx.data 0 0 = 0 ∧ mapy.data 0 0 = 0) ∧
      ∃ H, [(!![2, 0, 1; 0, 3, 1; 0, 0, 1] : Mat3)][0]? = some H ∧
        mapx.data 0 1 = (warpCoord H⁻¹ 1 0).1 ∧ mapy.data 0 1 = (warpCoord H⁻¹ 1 0).2 := by
  obtain ⟨mapx, mapy, hrun, hdim, hpix⟩ :=
    create_map_contract ⟨1, 2, fun _ x => if x = 0 then 0 else 1⟩
      [!![2, 0, 1; 0, 3, 1; 0, 0, 1]] ⟨0, 0, fun _ _ => 0⟩ ⟨0, 0, fun _ _ => 0⟩
      (by
        intro y x _ _
        by_cases hx : x = 0 <;> simp [hx])
  refine ⟨mapx, mapy, hrun, hdim, ?_, ?_⟩
  · simpa using (hpix 0 0 (by decide) (by decide)).1 (by simp)
  · simpa using (hpix 0 1 (by decide) (by decide)).2 (by simp)

/-! ## `create_map` in closed form -/

/-- What `create_map` writes at a pixel whose identifier does not exceed the number of
homographies. -/
theorem create_map_pixel_value (triangleMap : MatOf Int) (homMatrices : List Mat3)
    (y x : Nat) (st : MatOf ℚ × MatOf ℚ)
    (hn : triangleMap.data y x ≤ homMatrices.length) :
    create_map_pixel triangleMap (homMatrices.map inv) y x st
      = some (st.1.set y x (create_map_value triangleMap homMatrices y x).1,
          st.2.set y x (create_map_value triangleMap homMatrices y x).2) := by
  by_cases hpos : triangleMap.data y x - 1 ≥ 0
  · have hlt : (triangleMap.data y x - 1).toNat < homMatrices.length := by omega
    rw [create_map_pixel_pos triangleMap _ y x st
      (inv (homMatrices[(triangleMap.data y x - 1).toNat])) (by omega)
      (by rw [List.getElem?_map, List.getElem?_eq_getElem hlt]; rfl)]
    simp only [create_map_value, hpos, if_true, List.getD_eq_getElem?_getD,
      List.getElem?_eq_getElem hlt, Option.getD_some]
  · rw [create_map_pixel_nonpos triangleMap _ y x st (by omega)]
    simp only [create_map_value, hpos, if_false]

/-- Closed form of `create_map` on an ID map whose values do not exceed the number of
homographies: it succeeds, the maps have the dimensions of the ID map, and every pixel
holds `create_map_value`. -/
theorem create_map_eq_value (triangleMap : MatOf Int) (homMatrices : List Mat3)
    (mapx0 mapy0 : MatOf ℚ)
    (hid : ∀ y x, y < triangleMap.rows → x < triangleMap.cols →
      triangleMap.data y x ≤ homMatrices.length) :
    ∃ mapx mapy, create_map triangleMap homMatrices mapx0 mapy0 = some (mapx, mapy) ∧
      (mapx.rows = triangleMap.rows ∧ mapx.cols = triangleMap.cols ∧
        mapy.rows = triangleMap.rows ∧ mapy.cols = triangleMap.cols) ∧
      ∀ y x, y < triangleMap.rows → x < triangleMap.cols →
        mapx.data y x = (create_map_value triangleMap homMatrices y x).1 ∧
        mapy.data y x = (create_map_value triangleMap homMatrices y x).2 := by
  obtain ⟨maps, hmaps, hdim, hpix⟩ :=
    rows_loop_spec
      (fun st y => create_map_row triangleMap (homMatrices.map inv) y st)
      (create_map_value triangleMap homMatrices) triangleMap.cols triangleMap.rows
      (fun y st hy =>
        set_loop_spec
          (fun st x => create_map_pixel triangleMap (homMatrices.map inv) y x st)
          (create_map_value triangleMap homMatrices y) y triangleMap.cols
          (fun x st' hx => create_map_pixel_value triangleMap homMatrices y x st'
            (hid y x hy hx)) st triangleMap.cols le_rfl)
      (mapx0.create triangleMap.rows triangleMap.cols,
        mapy0.create triangleMap.rows triangleMap.cols)
      triangleMap.rows le_rfl
  exact ⟨maps.1, maps.2, hmaps, hdim, hpix⟩

/-! ## Lemmas on `find` and `get_triangle_indices` -/

theorem find_le_length (points : List Point2f) (v : Point2f) :
    find points v ≤ points.length := by
  induction points with
  | nil => simp [find]
  | cons p ps ih =>
    simp only [find, List.length_cons]
    split <;> omega

theorem find_ne_length_iff (points : List Point2f) (v : Point2f) :
    find points v ≠ points.length ↔ v ∈ points := by
  induction points with
  | nil => simp [find]
  | cons p ps ih =>
    simp only [find, List.length_cons, List.mem_cons]
    by_cases hp : p = v
    · simp [hp]
    · have hvp : ¬ v = p := fun h => hp h.symm
      simp only [hp, if_false, hvp, false_or, ← ih]
      omega

/-- The position `std::find` returns for an element that occurs is the smallest index
holding it. -/
theorem find_first (points : List Point2f) (v : Point2f) (h : v ∈ points) :
    points[find points v]? = some v ∧ ∀ m, m < find points v → points[m]? ≠ some v := by
  induction points with
  | nil => simp at h
  | cons p ps ih =>
    by_cases hp : p = v
    · simp [find, hp]
    · have hps : v ∈ ps := by
        rcases List.mem_cons.mp h with h | h
        · exact absurd h.symm hp
        · exact h
      obtain ⟨h1, h2⟩ := ih hps
      simp only [find, hp, if_false]
      refine ⟨by simpa using h1, ?_⟩
      intro m hm
      cases m with
      | zero => simpa using hp
      | succ m => simpa using h2 m (by omega)

theorem isFirstIndex_find (points : List Point2f) (v : Point2f) (h : v ∈ points) :
    IsFirstIndex points v (find points v : Int) :=
  ⟨find points v, rfl, find_first points v h⟩

/-- Two coordinates found at the same position are equal. -/
theorem find_injective (points : List Point2f) (v w : Point2f)
    (hv : v ∈ points) (hw : w ∈ points) (h : find points v = find points w) : v = w := by
  have h1 := (find_first points v hv).1
  have h2 := (find_first points w hw).1
  rw [h] at h1
  rw [h1] at h2
  exact Option.some.inj h2

/-- The triple one triangle contributes to the output of `get_triangle_indices`. -/
theorem get_triangle_indices_body_eq (triangles : List Vec6f) (points : List Point2f)
    (acc : List Vec3i) (i : Nat) (t : Vec6f) (ht : triangles[i]? = some t) :
    get_triangle_indices_body triangles points acc i
      = if AllVerticesOccur points t then
          acc ++ [⟨(find points (t.vertex 0) : Int), (find points (t.vertex 1) : Int),
            (find points (t.vertex 2) : Int)⟩]
        else acc := by
  have hget : triangles.getD i default = t := by
    rw [List.getD_eq_getElem?_getD, ht]
    rfl
  have hall : AllVerticesOccur points t ↔
      (find points ⟨t.c0, t.c1⟩ ≠ points.length ∧ find points ⟨t.c2, t.c3⟩ ≠ points.length
        ∧ find points ⟨t.c4, t.c5⟩ ≠ points.length) := by
    simp only [AllVerticesOccur, Fin.forall_fin_succ, Fin.forall_fin_zero_pi,
      find_ne_length_iff]
    simp [Vec6f.vertex]
  simp only [get_triangle_indices_body, hget]
  by_cases h : AllVerticesOccur points t
  · rw [if_pos h, if_pos (hall.mp h)]
    rfl
  · rw [if_neg h, if_neg (fun h' => h (hall.mpr h'))]

/-- Closed form of the loop of `get_triangle_indices` after `n` iterations. -/
theorem get_triangle_indices_loop (triangles : List Vec6f) (points : List Point2f)
    (acc : List Vec3i) (n : Nat) (hn : n ≤ triangles.length) :
    (List.range n).foldl (get_triangle_indices_body triangles points) acc
      = acc ++ (triangles.take n).filterMap (fun t =>
          if AllVerticesOccur points t then
            some ⟨(find points (t.vertex 0) : Int), (find points (t.vertex 1) : Int),
              (find points (t.vertex 2) : Int)⟩
          else none) := by
  induction n with
  | zero => simp
  | succ n ih =>
    have hlt : n < triangles.length := by omega
    have ht : triangles[n]? = some triangles[n] := List.getElem?_eq_getElem hlt
    rw [List.range_succ, List.foldl_append, ih (by omega), List.foldl_cons, List.foldl_nil,
      get_triangle_indices_body_eq triangles points _ n _ ht, List.take_succ, ht,
      List.filterMap_append]
    by_cases h : AllVerticesOccur points triangles[n]
    · simp [h]
    · simp [h]

theorem get_triangle_indices_eq (triangles : List Vec6f) (points : List Point2f)
    (old : List Vec3i) :
    get_triangle_indices triangles points old
      = triangles.filterMap (fun t =>
          if AllVerticesOccur points t then
            some ⟨(find points (t.vertex 0) : Int), (find points (t.vertex 1) : Int),
              (find points (t.vertex 2) : Int)⟩
          else none) := by
  simp only [get_triangle_indices, clear]
  rw [get_triangle_indices_loop triangles points [] triangles.length le_rfl]
  simp

/-- The triples `filterMap` keeps are in relation with the elements `filter` keeps. -/
theorem forall₂_filter_filterMap {α β : Type} (p : α → Prop) [DecidablePred p]
    (g : α → β) (R : α → β → Prop) (hR : ∀ a, p a → R a (g a)) (l : List α) :
    List.Forall₂ R (l.filter (fun a => decide (p a)))
      (l.filterMap (fun a => if p a then some (g a) else none)) := by
  induction l with
  | nil => simp
  | cons a l ih =>
    by_cases h : p a
    · simp only [List.filter_cons, h, decide_True, if_true, List.filterMap_cons]
      exact List.Forall₂.cons (hR a h) ih
    · simp only [List.filter_cons, h, decide_False, if_false, List.filterMap_cons]
      exact ih

/-! ## Claims on `get_triangle_indices` -/

/-- C9: for every triangle list and every supplied point set, every index triple
emitted by `get_triangle_indices` consists of three indices that are in range
(`0 <= index < number of points`); and when the list is a triangulation output, that
is, the three vertex coordinates of each of its triangles are pairwise different, the
three indices are pairwise distinct. -/
theorem get_triangle_indices_valid (triangles : List Vec6f) (points : List Point2f)
    (old : List Vec3i) (idx : Vec3i)
    (hidx : idx ∈ get_triangle_indices triangles points old) :
    (∀ j : Fin 3, 0 ≤ idx.index j ∧ idx.index j < (points.length : Int)) ∧
    ((∀ t ∈ triangles, DistinctVertices t) →
      idx.i0 ≠ idx.i1 ∧ idx.i0 ≠ idx.i2 ∧ idx.i1 ≠ idx.i2) := by
  rw [get_triangle_indices_eq, List.mem_filterMap] at hidx
  obtain ⟨t, ht, hsome⟩ := hidx
  by_cases hall : AllVerticesOccur points t
  · rw [if_pos hall] at hsome
    cases hsome
    have hlt : ∀ j : Fin 3, find points (t.vertex j) < points.length := fun j =>
      lt_of_le_of_ne (find_le_length points _) ((find_ne_length_iff points _).mpr (hall j))
    refine ⟨?_, fun hdist => ?_⟩
    · intro j
      fin_cases j
      · exact ⟨Int.ofNat_nonneg _, Int.ofNat_lt.mpr (hlt 0)⟩
      · exact ⟨Int.ofNat_nonneg _, Int.ofNat_lt.mpr (hlt 1)⟩
      · exact ⟨Int.ofNat_nonneg _, Int.ofNat_lt.mpr (hlt 2)⟩
    · obtain ⟨d01, d02, d12⟩ := hdist t ht
      refine ⟨fun h => ?_, fun h => ?_, fun h => ?_⟩
      · exact d01 (find_injective points _ _ (hall 0) (hall 1) (Int.ofNat_inj.mp h))
      · exact d02 (find_injective points _ _ (hall 0) (hall 2) (Int.ofNat_inj.mp h))
      · exact d12 (find_injective points _ _ (hall 1) (hall 2) (Int.ofNat_inj.mp h))
  · rw [if_neg hall] at hsome
    cases hsome

theorem get_triangle_indices_valid_witness :
    (⟨0, 1, 3⟩ : Vec3i) ∈ get_triangle_indices [⟨0, 0, 4, 0, 0, 4⟩, ⟨4, 0, 4, 4, 0, 4⟩]
        [⟨0, 0⟩, ⟨4, 0⟩, ⟨0, 0⟩, ⟨0, 4⟩] [⟨7, 7, 7⟩] ∧
    (∀ t ∈ ([⟨0, 0, 4, 0, 0, 4⟩, ⟨4, 0, 4, 4, 0, 4⟩] : List Vec6f), DistinctVertices t) ∧
    (∀ j : Fin 3, 0 ≤ (⟨0, 1, 3⟩ : Vec3i).index j ∧
      (⟨0, 1, 3⟩ : Vec3i).index j
        < (([⟨0, 0⟩, ⟨4, 0⟩, ⟨0, 0⟩, ⟨0, 4⟩] : List Point2f).length : Int)) ∧
    ((∀ t ∈ ([⟨0, 0, 4, 0, 0, 4⟩, ⟨4, 0, 4, 4, 0, 4⟩] : List Vec6f), DistinctVertices t) →
      (⟨0, 1, 3⟩ : Vec3i).i0 ≠ (⟨0, 1, 3⟩ : Vec3i).i1 ∧
      (⟨0, 1, 3⟩ : Vec3i).i0 ≠ (⟨0, 1, 3⟩ : Vec3i).i2 ∧
      (⟨0, 1, 3⟩ : Vec3i).i1 ≠ (⟨0, 1, 3⟩ : Vec3i).i2) :=
  ⟨by decide, by decide,
    get_triangle_indices_valid [⟨0, 0, 4, 0, 0, 4⟩, ⟨4, 0, 4, 4, 0, 4⟩]
      [⟨0, 0⟩, ⟨4, 0⟩, ⟨0, 0⟩, ⟨0, 4⟩] [⟨7, 7, 7⟩] ⟨0, 1, 3⟩ (by decide)⟩

/-- C10: `get_triangle_indices` resolves triangles by exact coordinate match with
first-match tie-break. Its output lists, in triangulation order, one triple for each
triangle all three of whose vertex coordinates occur in the point set, the component
`j` of the triple being the smallest index at which the point set holds the vertex `j`
of the triangle; a triangle with a vertex that does not occur contributes nothing;
what the output list held before the call has no influence on the result. -/
theorem get_triangle_indices_first_match (triangles : List Vec6f)
    (points : List Point2f) (old : List Vec3i) :
    List.Forall₂ (Resolves points)
      (triangles.filter (fun t => decide (AllVerticesOccur points t)))
      (get_triangle_indices triangles points old) ∧
    get_triangle_indices triangles points old = get_triangle_indices triangles points [] := by
  refine ⟨?_, ?_⟩
  · rw [get_triangle_indices_eq]
    apply forall₂_filter_filterMap (AllVerticesOccur points)
      (fun t => (⟨(find points (t.vertex 0) : Int), (find points (t.vertex 1) : Int),
        (find points (t.vertex 2) : Int)⟩ : Vec3i)) (Resolves points)
    intro t hall j
    fin_cases j
    · exact isFirstIndex_find points _ (hall 0)
    · exact isFirstIndex_find points _ (hall 1)
    · exact isFirstIndex_find points _ (hall 2)
  · rw [get_triangle_indices_eq, get_triangle_indices_eq]

/-! ## Claim on the failure of `morph_points` -/

/-- C14: `morph_points` fails (the `assert` on the sizes) if and only if the two input
point sets differ in length: for `|A| != |B|` no output point set is produced, and for
`|A| == |B|` it always succeeds, with an output of that length. -/
theorem morph_points_fails_iff (A B D : List Point2f) (s : ℚ) :
    (morph_points ⟨A, B, D⟩ s = none ↔ A.length ≠ B.length) ∧
    (A.length = B.length ↔ ∃ C, morph_points ⟨A, B, D⟩ s = some ⟨A, B, C⟩ ∧
      C.length = A.length) := by
  by_cases h : A.length = B.length
  · have hrun := morph_points_eq A B D s h
    refine ⟨⟨fun hnone => ?_, fun hne => absurd h hne⟩, ⟨fun _ => ?_, fun _ => h⟩⟩
    · rw [hrun] at hnone
      cases hnone
    · exact ⟨_, hrun, by simp [h]⟩
  · have hnone : morph_points ⟨A, B, D⟩ s = none := by
      simp [morph_points, h]
    refine ⟨⟨fun _ => h, fun _ => hnone⟩, ⟨fun heq => absurd heq h, ?_⟩⟩
    rintro ⟨C, hC, -⟩
    rw [hnone] at hC
    cases hC

/-! ## Claim on the exchange of the two sources -/

/-- C20: for non-collinear triangles `a` and `b` and every ratio `r`, both
`solve_homography(a, b)` and `solve_homography(b, a)` succeed, and if
`morph_homography(solve_homography(a, b), r) = (H1, H2)` then
`morph_homography(solve_homography(b, a), 1 - r) = (H2, H1)`. -/
theorem morph_homography_swap (a0 a1 a2 b0 b1 b2 : Point) (r : ℚ)
    (ha : ¬ collinear a0 a1 a2) (hb : ¬ collinear b0 b1 b2) :
    ∃ H G, solve_homography [a0, a1, a2] [b0, b1, b2] = some H ∧
      solve_homography [b0, b1, b2] [a0, a1, a2] = some G ∧
      morph_homography G (1 - r) = ((morph_homography H r).2, (morph_homography H r).1) := by
  refine ⟨_, _, solve_homography_three a0 a1 a2 b0 b1 b2,
    solve_homography_three b0 b1 b2 a0 a1 a2, ?_⟩
  simp only [morph_homography, inv_solved a0 a1 a2 b0 b1 b2 ha hb,
    inv_solved b0 b1 b2 a0 a1 a2 hb ha, sub_sub_cancel]

theorem morph_homography_swap_witness :
    ¬ collinear ⟨0, 0⟩ ⟨1, 0⟩ ⟨0, 1⟩ ∧ ¬ collinear ⟨1, 1⟩ ⟨3, 1⟩ ⟨1, 4⟩ ∧
    ∃ H G, solve_homography [⟨0, 0⟩, ⟨1, 0⟩, ⟨0, 1⟩] [⟨1, 1⟩, ⟨3, 1⟩, ⟨1, 4⟩] = some H ∧
      solve_homography [⟨1, 1⟩, ⟨3, 1⟩, ⟨1, 4⟩] [⟨0, 0⟩, ⟨1, 0⟩, ⟨0, 1⟩] = some G ∧
      morph_homography G (1 - 1 / 4)
        = ((morph_homography H (1 / 4)).2, (morph_homography H (1 / 4)).1) :=
  ⟨by decide, by decide,
    morph_homography_swap ⟨0, 0⟩ ⟨1, 0⟩ ⟨0, 1⟩ ⟨1, 1⟩ ⟨3, 1⟩ ⟨1, 4⟩ (1 / 4)
      (by decide) (by decide)⟩

/-! ## Lemmas on the batched `solve_homography` -/

theorem eq_triple_of_length {α : Type} (t : List α) (h : t.length = 3) :
    ∃ a b c, t = [a, b, c] := by
  match t, h with
  | [a, b, c], _ => exact ⟨a, b, c, rfl⟩

/-- The single-triangle `solve_homography` succeeds on two vectors of three points. -/
theorem solve_homography_isSome (t1 t2 : List Point) (h1 : t1.length = 3)
    (h2 : t2.length = 3) : ∃ H, solve_homography t1 t2 = some H := by
  obtain ⟨p0, p1, p2, rfl⟩ := eq_triple_of_length t1 h1
  obtain ⟨q0, q1, q2, rfl⟩ := eq_triple_of_length t2 h2
  exact ⟨_, solve_homography_three p0 p1 p2 q0 q1 q2⟩

/-- On a collinear source triangle the inverse is the zero matrix, and so is the solved
homography: no error is raised. -/
theorem solve_homography_collinear (t1 t2 : List Point) (h2 : t2.length = 3)
    (hc : collinearTriangle t1) : solve_homography t1 t2 = some 0 := by
  obtain ⟨q0, q1, q2, rfl⟩ := eq_triple_of_length t2 h2
  match t1, hc with
  | [p0, p1, p2], hc =>
    have hdet : det3 (homMat p0 p1 p2) = 0 := by
      rw [det3_homMat]
      exact_mod_cast hc
    rw [solve_homography_three]
    simp [inv, hdet]

/-- Closed form of the loop of the batched `solve_homography` when every single call
succeeds. -/
theorem solve_homography_batch_loop (srcPts1 srcPts2 : List (List Point))
    (f : Nat → Mat3) (acc : List Mat3) (n : Nat)
    (hf : ∀ i, i < n →
      solve_homography (srcPts1.getD i []) (srcPts2.getD i []) = some (f i)) :
    (List.range n).foldlM (solve_homography_batch_body srcPts1 srcPts2) acc
      = some (acc ++ (List.range n).map f) := by
  induction n with
  | zero => simp
  | succ n ih =>
    rw [List.range_succ, List.foldlM_append, ih (fun i hi => hf i (by omega))]
    have hn := hf n (by omega)
    simp only [List.foldlM_cons, List.foldlM_nil, Option.bind_eq_bind, Option.some_bind,
      solve_homography_batch_body, hn, Option.bind_some, List.map_append, List.map_cons,
      List.map_nil, List.append_assoc]
    rfl

theorem solve_homography_batch_eq (srcPts1 srcPts2 : List (List Point))
    (f : Nat → Mat3) (old : List Mat3) (hlen : srcPts1.length = srcPts2.length)
    (hf : ∀ i, i < srcPts1.length →
      solve_homography (srcPts1.getD i []) (srcPts2.getD i []) = some (f i)) :
    solve_homography_batch srcPts1 srcPts2 old
      = some ((List.range srcPts1.length).map f) := by
  simp only [solve_homography_batch, hlen, if_true, clear]
  rw [← hlen, solve_homography_batch_loop srcPts1 srcPts2 f [] srcPts1.length hf]
  simp

/-! ## Claim on the batched `solve_homography` -/

/-- C15 (as the code has it): the batched `solve_homography` raises no error for a
singular triangle. For two lists of the same length whose entries are triangles (three
points each) it returns a list of the same length whose entry `i` is the single-triangle
solve of the pair `i`, in input order; where the source triangle is collinear, that entry
is the zero matrix. -/
theorem solve_homography_batch_total (srcPts1 srcPts2 : List (List Point))
    (old : List Mat3) (hlen : srcPts1.length = srcPts2.length)
    (h3 : ∀ i, i < srcPts1.length →
      (srcPts1.getD i []).length = 3 ∧ (srcPts2.getD i []).length = 3) :
    ∃ hmats, solve_homography_batch srcPts1 srcPts2 old = some hmats ∧
      hmats.length = srcPts1.length ∧
      ∀ i, i < srcPts1.length →
        solve_homography (srcPts1.getD i []) (srcPts2.getD i []) = hmats[i]? ∧
        (collinearTriangle (srcPts1.getD i []) → hmats[i]? = some 0) := by
  have hf : ∀ i, i < srcPts1.length →
      solve_homography (srcPts1.getD i []) (srcPts2.getD i [])
        = some ((solve_homography (srcPts1.getD i []) (srcPts2.getD i [])).getD 0) := by
    intro i hi
    obtain ⟨H, hH⟩ := solve_homography_isSome _ _ (h3 i hi).1 (h3 i hi).2
    rw [hH]
    rfl
  refine ⟨_, solve_homography_batch_eq srcPts1 srcPts2 _ old hlen hf, by simp, ?_⟩
  intro i hi
  have hget : ((List.range srcPts1.length).map fun i =>
      (solve_homography (srcPts1.getD i []) (srcPts2.getD i [])).getD 0)[i]?
        = some ((solve_homography (srcPts1.getD i []) (srcPts2.getD i [])).getD 0) := by
    rw [List.getElem?_map, List.getElem?_range hi]
    rfl
  rw [hget]
  refine ⟨hf i hi, fun hc => ?_⟩
  rw [solve_homography_collinear _ _ (h3 i hi).2 hc]
  rfl

theorem solve_homography_batch_total_witness :
    ∃ hmats, solve_homography_batch [[⟨0, 0⟩, ⟨1, 0⟩, ⟨0, 1⟩], [⟨0, 0⟩, ⟨1, 0⟩, ⟨2, 0⟩]]
        [[⟨1, 1⟩, ⟨3, 1⟩, ⟨1, 4⟩], [⟨1, 1⟩, ⟨3, 1⟩, ⟨1, 4⟩]] [1] = some hmats ∧
      hmats.length = 2 ∧
      solve_homography [⟨0, 0⟩, ⟨1, 0⟩, ⟨0, 1⟩] [⟨1, 1⟩, ⟨3, 1⟩, ⟨1, 4⟩] = hmats[0]? ∧
      hmats[1]? = some 0 := by
  obtain ⟨hmats, hrun, hlen, hall⟩ :=
    solve_homography_batch_total [[⟨0, 0⟩, ⟨1, 0⟩, ⟨0, 1⟩], [⟨0, 0⟩, ⟨1, 0⟩, ⟨2, 0⟩]]
      [[⟨1, 1⟩, ⟨3, 1⟩, ⟨1, 4⟩], [⟨1, 1⟩, ⟨3, 1⟩, ⟨1, 4⟩]] [1] (by decide)
      (by
        intro i hi
        have hi2 : i < 2 := hi
        interval_cases i <;> exact ⟨rfl, rfl⟩)
  exact ⟨hmats, hrun, hlen, (hall 0 (by decide)).1, (hall 1 (by decide)).2 (by decide)⟩

/-- The batched `solve_homography` on a list holding one collinear source triangle: it
returns the zero matrix for it instead of failing. -/
theorem solve_homography_batch_no_error :
    collinearTriangle [⟨0, 0⟩, ⟨1, 0⟩, ⟨2, 0⟩] ∧
    solve_homography_batch [[⟨0, 0⟩, ⟨1, 0⟩, ⟨2, 0⟩]] [[⟨1, 1⟩, ⟨3, 1⟩, ⟨1, 4⟩]] []
      = some [0] := by
  refine ⟨by decide, ?_⟩
  rw [solve_homography_batch_eq [[⟨0, 0⟩, ⟨1, 0⟩, ⟨2, 0⟩]] [[⟨1, 1⟩, ⟨3, 1⟩, ⟨1, 4⟩]]
    (fun _ => 0) [] rfl]
  · rfl
  · intro i hi
    have hi1 : i < 1 := hi
    interval_cases i
    exact solve_homography_collinear _ _ rfl (by decide)

/-! ## Lemmas on identical inputs and on the batched `morph_homography` -/

theorem inv_one_eq : inv (1 : Mat3) = 1 := by
  rw [inv_eq_nonsing_inv, inv_one]

/-- Solving a non-collinear triangle against itself gives the identity. -/
theorem solve_homography_self (t : List Point) (h : nonCollinearTriangle t) :
    solve_homography t t = some 1 := by
  match t, h with
  | [p0, p1, p2], h =>
    rw [solve_homography_three, mul_inv_of_det3 (det3_homMat_ne_zero h)]

theorem morph_homography_one (r : ℚ) : morph_homography 1 r = (1, 1) := by
  simp only [morph_homography, inv_one_eq, ← add_smul, sub_add_cancel, add_sub_cancel,
    one_smul]

/-- Loop invariant of the batched `morph_homography`: after `n` iterations the lengths
are unchanged and the first `n` entries of both outputs hold the blended transforms. -/
theorem morph_homography_batch_loop (homs : List Mat3) (r : ℚ) (D1 D2 : List Mat3)
    (n : Nat) (h1 : n ≤ D1.length) (h2 : n ≤ D2.length) :
    ∃ C1 C2, (List.range n).foldl (morph_homography_batch_body homs r) (D1, D2) = (C1, C2) ∧
      C1.length = D1.length ∧ C2.length = D2.length ∧
      ∀ i, i < n →
        C1[i]? = some (morph_homography (homs.getD i 0) r).1 ∧
        C2[i]? = some (morph_homography (homs.getD i 0) r).2 := by
  induction n with
  | zero => exact ⟨D1, D2, by simp, rfl, rfl, by simp⟩
  | succ n ih =>
    obtain ⟨C1, C2, hC, hl1, hl2, hlo⟩ := ih (by omega) (by omega)
    refine ⟨C1.set n (morph_homography (homs.getD n 0) r).1,
      C2.set n (morph_homography (homs.getD n 0) r).2, ?_, by simp [hl1], by simp [hl2], ?_⟩
    · rw [List.range_succ, List.foldl_append, hC]
      rfl
    · intro i hi
      by_cases hin : i = n
      · subst hin
        rw [List.getElem?_set_self (by omega), List.getElem?_set_self (by omega)]
        exact ⟨rfl, rfl⟩
      · rw [List.getElem?_set_ne (by omega), List.getElem?_set_ne (by omega)]
        exact hlo i (by omega)

/-- Closed form of the batched `morph_homography`: entry `i` of the two outputs is the
pair the single-matrix function returns for `homs[i]`. -/
theorem morph_homography_batch_eq (homs old1 old2 : List Mat3) (r : ℚ) :
    morph_homography_batch homs old1 old2 r
      = (homs.map (fun H => (morph_homography H r).1),
          homs.map (fun H => (morph_homography H r).2)) := by
  obtain ⟨C1, C2, hC, hl1, hl2, hlo⟩ :=
    morph_homography_batch_loop homs r (resize old1 homs.length) (resize old2 homs.length)
      homs.length (by rw [length_resize]) (by rw [length_resize])
  rw [length_resize] at hl1 hl2
  have hget : ∀ i, i < homs.length → homs[i]? = some (homs.getD i 0) := by
    intro i hi
    rw [List.getD_eq_getElem?_getD, List.getElem?_eq_getElem hi]
    rfl
  have e1 : C1 = homs.map (fun H => (morph_homography H r).1) := by
    apply List.ext_getElem?
    intro i
    by_cases hi : i < homs.length
    · rw [(hlo i hi).1, List.getElem?_map, hget i hi]
      rfl
    · rw [List.getElem?_eq_none (by omega), List.getElem?_eq_none (by simp; omega)]
  have e2 : C2 = homs.map (fun H => (morph_homography H r).2) := by
    apply List.ext_getElem?
    intro i
    by_cases hi : i < homs.length
    · rw [(hlo i hi).2, List.getElem?_map, hget i hi]
      rfl
    · rw [List.getElem?_eq_none (by omega), List.getElem?_eq_none (by simp; omega)]
  simp only [morph_homography_batch]
  rw [hC, e1, e2]

/-- With identity homographies `create_map` assigns every pixel to itself. -/
theorem create_map_value_replicate_one (triangleMap : MatOf Int) (n y x : Nat)
    (hid : triangleMap.data y x ≤ n) :
    create_map_value triangleMap (List.replicate n 1) y x = ((x : ℚ), (y : ℚ)) := by
  by_cases hpos : triangleMap.data y x - 1 ≥ 0
  · have hlt : (triangleMap.data y x - 1).toNat < n := by omega
    have hget : (List.replicate n (1 : Mat3)).getD (triangleMap.data y x - 1).toNat 0 = 1 := by
      rw [List.getD_eq_getElem?_getD, List.getElem?_replicate, if_pos hlt]
      rfl
    simp only [create_map_value, hpos, if_true, hget, inv_one_eq, warpCoord,
      Matrix.one_mulVec]
    simp [homog]
  · simp only [create_map_value, hpos, if_false]

/-- The identity homographies give the identity maps. -/
theorem create_map_replicate_one (triangleMap : MatOf Int) (n : Nat) (mapx0 mapy0 : MatOf ℚ)
    (hid : ∀ y x, y < triangleMap.rows → x < triangleMap.cols → triangleMap.data y x ≤ n) :
    ∃ mapx mapy,
      create_map triangleMap (List.replicate n 1) mapx0 mapy0 = some (mapx, mapy) ∧
      ∀ y x, y < triangleMap.rows → x < triangleMap.cols →
        mapx.data y x = (x : ℚ) ∧ mapy.data y x = (y : ℚ) := by
  obtain ⟨mapx, mapy, hrun, -, hpix⟩ :=
    create_map_eq_value triangleMap (List.replicate n 1) mapx0 mapy0
      (by simpa using hid)
  refine ⟨mapx, mapy, hrun, fun y x hy hx => ?_⟩
  obtain ⟨hx1, hy1⟩ := hpix y x hy hx
  rw [hx1, hy1, create_map_value_replicate_one triangleMap n y x (hid y x hy hx)]
  exact ⟨rfl, rfl⟩

/-! ## Claim on identical inputs -/

/-- C16: if the two source triangle lists are identical and every triangle is
non-collinear, then for every shape ratio `r` every solved homography is the identity,
the batched `morph_homography` returns the identity for each triangle in both outputs,
and on any triangle-ID map (values not above the number of triangles) `create_map`
yields the identity map `mapx(y,x) = x`, `mapy(y,x) = y` at every pixel, for both
source images. -/
theorem identical_inputs_noop (tris : List (List Point)) (r : ℚ) (triMap : MatOf Int)
    (hmats0 morph10 morph20 : List Mat3) (mapx0 mapy0 : MatOf ℚ)
    (htri : ∀ t ∈ tris, nonCollinearTriangle t)
    (hid : ∀ y x, y < triMap.rows → x < triMap.cols →
      triMap.data y x ≤ tris.length) :
    ∃ homs morphHom1 morphHom2,
      solve_homography_batch tris tris hmats0 = some homs ∧
      homs = List.replicate tris.length 1 ∧
      morph_homography_batch homs morph10 morph20 r = (morphHom1, morphHom2) ∧
      morphHom1 = List.replicate tris.length 1 ∧
      morphHom2 = List.replicate tris.length 1 ∧
      (∃ mapx mapy, create_map triMap morphHom1 mapx0 mapy0 = some (mapx, mapy) ∧
        ∀ y x, y < triMap.rows → x < triMap.cols →
          mapx.data y x = (x : ℚ) ∧ mapy.data y x = (y : ℚ)) ∧
      (∃ mapx mapy, create_map triMap morphHom2 mapx0 mapy0 = some (mapx, mapy) ∧
        ∀ y x, y < triMap.rows → x < triMap.cols →
          mapx.data y x = (x : ℚ) ∧ mapy.data y x = (y : ℚ)) := by
  have hsolve : solve_homography_batch tris tris hmats0
      = some (List.replicate tris.length 1) := by
    rw [solve_homography_batch_eq tris tris (fun _ => 1) hmats0 rfl]
    · congr 1
      apply List.ext_getElem?
      intro i
      by_cases hi : i < tris.length
      · rw [List.getElem?_map, List.getElem?_range hi, List.getElem?_replicate, if_pos hi]
        rfl
      · rw [List.getElem?_eq_none (by simp; omega), List.getElem?_eq_none (by simp; omega)]
    · intro i hi
      have hmem : tris.getD i [] ∈ tris := by
        rw [List.getD_eq_getElem?_getD, List.getElem?_eq_getElem hi]
        exact List.getElem_mem hi
      exact solve_homography_self _ (htri _ hmem)
  have hmorph : morph_homography_batch (List.replicate tris.length 1) morph10 morph20 r
      = (List.replicate tris.length 1, List.replicate tris.length 1) := by
    rw [morph_homography_batch_eq]
    simp [morph_homography_one]
  exact ⟨_, _, _, hsolve, rfl, hmorph, rfl, rfl,
    create_map_replicate_one triMap tris.length mapx0 mapy0 hid,
    create_map_replicate_one triMap tris.length mapx0 mapy0 hid⟩

theorem identical_inputs_noop_witness :
    ∃ homs morphHom1 morphHom2,
      solve_homography_batch [[⟨0, 0⟩, ⟨3, 0⟩, ⟨0, 3⟩], [⟨3, 0⟩, ⟨3, 3⟩, ⟨0, 3⟩]]
        [[⟨0, 0⟩, ⟨3, 0⟩, ⟨0, 3⟩], [⟨3, 0⟩, ⟨3, 3⟩, ⟨0, 3⟩]] [] = some homs ∧
      homs = List.replicate 2 1 ∧
      morph_homography_batch homs [] [] (1 / 2) = (morphHom1, morphHom2) ∧
      morphHom1 = List.replicate 2 1 ∧
      morphHom2 = List.replicate 2 1 ∧
      (∃ mapx mapy,
        create_map ⟨4, 4, fun y x => if x + y ≤ 3 then 1 else 2⟩ morphHom1
          ⟨0, 0, fun _ _ => 0⟩ ⟨0, 0, fun _ _ => 0⟩ = some (mapx, mapy) ∧
        ∀ y x, y < 4 → x < 4 → mapx.data y x = (x : ℚ) ∧ mapy.data y x = (y : ℚ)) ∧
      (∃ mapx mapy,
        create_map ⟨4, 4, fun y x => if x + y ≤ 3 then 1 else 2⟩ morphHom2
          ⟨0, 0, fun _ _ => 0⟩ ⟨0, 0, fun _ _ => 0⟩ = some (mapx, mapy) ∧
        ∀ y x, y < 4 → x < 4 → mapx.data y x = (x : ℚ) ∧ mapy.data y x = (y : ℚ)) :=
  identical_inputs_noop [[⟨0, 0⟩, ⟨3, 0⟩, ⟨0, 3⟩], [⟨3, 0⟩, ⟨3, 3⟩, ⟨0, 3⟩]] (1 / 2)
    ⟨4, 4, fun y x => if x + y ≤ 3 then 1 else 2⟩ [] [] [] ⟨0, 0, fun _ _ => 0⟩
    ⟨0, 0, fun _ _ => 0⟩
    (by
      intro t ht
      simp only [List.mem_cons, List.mem_singleton, List.not_mem_nil, or_false] at ht
      rcases ht with rfl | rfl <;> decide)
    (by
      intro y x _ _
      by_cases h : x + y ≤ 3 <;> simp [h])

/-! ## Lemmas on the third row and on the intermediate triangle -/

/-- If `h * s = d`, the matrices `s` and `d` have the same third row and `s` is
invertible, then the third row of `h` is `(0, 0, 1)`. -/
theorem thirdRowUnit_of_mul_eq (h s d : Mat3) (hs : det3 s ≠ 0) (hmul : h * s = d)
    (hrow : s 2 = d 2) : thirdRowUnit h := by
  have h1 : Matrix.vecMul (h 2) s = d 2 := by
    rw [← hmul]
    rfl
  have h2 : Matrix.vecMul ![0, 0, 1] s = s 2 := by
    ext j
    simp [Matrix.vecMul, Matrix.dotProduct, Fin.sum_univ_three]
  have h3 : Matrix.vecMul (h 2) s = Matrix.vecMul ![0, 0, 1] s := by
    rw [h1, h2, hrow]
  have h4 : h 2 = ![0, 0, 1] := by
    have := congrArg (fun v => Matrix.vecMul v (inv s)) h3
    simpa only [Matrix.vecMul_vecMul, mul_inv_of_det3 hs, Matrix.vecMul_one] using this
  refine ⟨?_, ?_, ?_⟩
  · exact (congrFun h4 0).trans rfl
  · exact (congrFun h4 1).trans rfl
  · exact (congrFun h4 2).trans rfl

theorem homMat_row_two (p0 p1 p2 : Point) : homMat p0 p1 p2 2 = ![1, 1, 1] := rfl

theorem homMat2f_row_two (p0 p1 p2 : Point2f) : homMat2f p0 p1 p2 2 = ![1, 1, 1] := rfl

/-- The solved homography of a non-collinear source triangle has third row `(0, 0, 1)`. -/
theorem thirdRowUnit_solved (p0 p1 p2 q0 q1 q2 : Point) (h : ¬ collinear p0 p1 p2) :
    thirdRowUnit (homMat q0 q1 q2 * inv (homMat p0 p1 p2)) :=
  thirdRowUnit_of_mul_eq _ _ _ (det3_homMat_ne_zero h)
    (solved_mul_homMat p0 p1 p2 q0 q1 q2 h) rfl

/-- The inverse of an invertible matrix with third row `(0, 0, 1)` has that third row. -/
theorem thirdRowUnit_inv (m : Mat3) (hrow : thirdRowUnit m) (hdet : det3 m ≠ 0) :
    thirdRowUnit (inv m) := by
  apply thirdRowUnit_of_mul_eq (inv m) m 1 hdet (inv_mul_of_det3 hdet)
  obtain ⟨h0, h1, h2⟩ := hrow
  ext j
  fin_cases j
  · simpa using h0
  · simpa using h1
  · simpa using h2

/-- Blending with the identity keeps the third row `(0, 0, 1)`. -/
theorem thirdRowUnit_blend (m : Mat3) (s t : ℚ) (hst : s + t = 1) (hrow : thirdRowUnit m) :
    thirdRowUnit (s • (1 : Mat3) + t • m) := by
  obtain ⟨h0, h1, h2⟩ := hrow
  refine ⟨?_, ?_, ?_⟩
  · simp [h0]
  · simp [h1]
  · simp [h2, hst]

theorem det3_homMat2f (p0 p1 p2 : Point2f) :
    det3 (homMat2f p0 p1 p2)
      = (p1.x - p0.x) * (p2.y - p0.y) - (p2.x - p0.x) * (p1.y - p0.y) := by
  simp [det3, homMat2f]
  ring

/-- A transform `h` with `h * Hom(a) = Hom(b)`, blended with the identity, sends the
triangle `a` onto the intermediate triangle. -/
theorem blend_mul_homMat (h : Mat3) (r : ℚ) (a0 a1 a2 b0 b1 b2 : Point)
    (hmul : h * homMat a0 a1 a2 = homMat b0 b1 b2) :
    ((1 - r) • (1 : Mat3) + r • h) * homMat a0 a1 a2
      = homMat2f (interpolated r a0 b0) (interpolated r a1 b1) (interpolated r a2 b2) := by
  rw [Matrix.add_mul, Matrix.smul_mul, Matrix.smul_mul, Matrix.one_mul, hmul]
  ext i j
  fin_cases i <;> fin_cases j <;> simp [homMat, homMat2f, interpolated]

/-- The same for `MorphHom2`, which sends the triangle `b` onto the intermediate
triangle. -/
theorem blend_swap_mul_homMat (g : Mat3) (r : ℚ) (a0 a1 a2 b0 b1 b2 : Point)
    (hmul : g * homMat b0 b1 b2 = homMat a0 a1 a2) :
    (r • (1 : Mat3) + (1 - r) • g) * homMat b0 b1 b2
      = homMat2f (interpolated r a0 b0) (interpolated r a1 b1) (interpolated r a2 b2) := by
  rw [Matrix.add_mul, Matrix.smul_mul, Matrix.smul_mul, Matrix.one_mul, hmul]
  ext i j
  fin_cases i <;> fin_cases j <;> simp [homMat, homMat2f, interpolated] <;> ring

/-- A transform sending a non-collinear triangle `s` onto the triangle `m` is invertible
exactly when `m` is not collinear. -/
theorem det3_ne_zero_of_mul_eq (t : Mat3) (s0 s1 s2 : Point) (m0 m1 m2 : Point2f)
    (hmul : t * homMat s0 s1 s2 = homMat2f m0 m1 m2) (hm : ¬ collinear2f m0 m1 m2) :
    det3 t ≠ 0 := by
  intro h0
  have hdet : det3 (t * homMat s0 s1 s2) = det3 (homMat2f m0 m1 m2) := by rw [hmul]
  rw [det3_mul, h0, zero_mul, det3_homMat2f] at hdet
  exact hm hdet.symm

/-- When the triangle `m` is collinear the transform is singular, its OpenCV inverse is the
zero matrix, and the denominator of `create_map` is zero at every pixel. -/
theorem create_map_z_zero_of_collinear (t : Mat3) (s0 s1 s2 : Point) (m0 m1 m2 : Point2f)
    (hs : ¬ collinear s0 s1 s2)
    (hmul : t * homMat s0 s1 s2 = homMat2f m0 m1 m2) (hm : collinear2f m0 m1 m2)
    (x y : Nat) : create_map_z (inv t) x y = 0 := by
  have hdet : det3 (t * homMat s0 s1 s2) = det3 (homMat2f m0 m1 m2) := by rw [hmul]
  rw [det3_mul, det3_homMat2f, hm] at hdet
  have h0 : det3 t = 0 := by
    rcases mul_eq_zero.mp hdet with h | h
    · exact h
    · exact absurd h (det3_homMat_ne_zero hs)
  simp [create_map_z, inv, h0]

/-- The inverse of such a transform sends the triangle `m` back onto `s`. -/
theorem inv_mul_homMat2f (t : Mat3) (s0 s1 s2 : Point) (m0 m1 m2 : Point2f)
    (hmul : t * homMat s0 s1 s2 = homMat2f m0 m1 m2) (hm : ¬ collinear2f m0 m1 m2) :
    inv t * homMat2f m0 m1 m2 = homMat s0 s1 s2 := by
  rw [← hmul, ← Matrix.mul_assoc,
    inv_mul_of_det3 (det3_ne_zero_of_mul_eq t s0 s1 s2 m0 m1 m2 hmul hm), Matrix.one_mul]

theorem thirdRowUnit_inv_of_mul_eq (t : Mat3) (s0 s1 s2 : Point) (m0 m1 m2 : Point2f)
    (hmul : t * homMat s0 s1 s2 = homMat2f m0 m1 m2) (hm : ¬ collinear2f m0 m1 m2) :
    thirdRowUnit (inv t) := by
  have hdet : det3 (homMat2f m0 m1 m2) ≠ 0 := by
    rw [det3_homMat2f]
    exact hm
  exact thirdRowUnit_of_mul_eq _ _ _ hdet
    (inv_mul_homMat2f t s0 s1 s2 m0 m1 m2 hmul hm) rfl

theorem create_map_z_of_thirdRowUnit (g : Mat3) (hrow : thirdRowUnit g) (x y : Nat) :
    create_map_z g x y = 1 := by
  obtain ⟨h0, h1, h2⟩ := hrow
  simp [create_map_z, h0, h1, h2]

/-- With an inverse homography of third row `(0, 0, 1)` the division of `create_map` is
by 1: the pixel receives the first two coordinates of the product. -/
theorem warpCoord_of_thirdRowUnit (g : Mat3) (hrow : thirdRowUnit g) (x y : Nat) :
    warpCoord g x y
      = (g 0 0 * (x : ℚ) + g 0 1 * (y : ℚ) + g 0 2, g 1 0 * (x : ℚ) + g 1 1 * (y : ℚ) + g 1 2) := by
  obtain ⟨h0, h1, h2⟩ := hrow
  simp [warpCoord, mulVec_homog_eq, h0, h1, h2]

/-- Barycentric form of the inverse warp: a pixel with barycentric coordinates
`(l0, l1, l2)` in the triangle `m` receives the point of `s` with the same coordinates. -/
theorem warpCoord_barycentric (t : Mat3) (s0 s1 s2 : Point) (m0 m1 m2 : Point2f)
    (hmul : t * homMat s0 s1 s2 = homMat2f m0 m1 m2) (hm : ¬ collinear2f m0 m1 m2)
    (x y : Nat) (l0 l1 l2 : ℚ) (hsum : l0 + l1 + l2 = 1)
    (hx : (x : ℚ) = l0 * m0.x + l1 * m1.x + l2 * m2.x)
    (hy : (y : ℚ) = l0 * m0.y + l1 * m1.y + l2 * m2.y) :
    warpCoord (inv t) x y
      = (l0 * (s0.x : ℚ) + l1 * (s1.x : ℚ) + l2 * (s2.x : ℚ),
          l0 * (s0.y : ℚ) + l1 * (s1.y : ℚ) + l2 * (s2.y : ℚ)) := by
  have hpix : homog (x : ℚ) (y : ℚ) = homMat2f m0 m1 m2 *ᵥ ![l0, l1, l2] := by
    ext i
    fin_cases i
    · simp [homog, homMat2f, Matrix.mulVec, Matrix.dotProduct, Fin.sum_univ_three, hx]
      ring
    · simp [homog, homMat2f, Matrix.mulVec, Matrix.dotProduct, Fin.sum_univ_three, hy]
      ring
    · simp [homog, homMat2f, Matrix.mulVec, Matrix.dotProduct, Fin.sum_univ_three, hsum]
  have hprod : inv t *ᵥ homog (x : ℚ) (y : ℚ) = homMat s0 s1 s2 *ᵥ ![l0, l1, l2] := by
    rw [hpix, Matrix.mulVec_mulVec, inv_mul_homMat2f t s0 s1 s2 m0 m1 m2 hmul hm]
  have h0 : (inv t *ᵥ homog (x : ℚ) (y : ℚ)) 0
      = l0 * (s0.x : ℚ) + l1 * (s1.x : ℚ) + l2 * (s2.x : ℚ) := by
    rw [hprod]
    simp [homMat, Matrix.mulVec, Matrix.dotProduct, Fin.sum_univ_three]
    ring
  have h1 : (inv t *ᵥ homog (x : ℚ) (y : ℚ)) 1
      = l0 * (s0.y : ℚ) + l1 * (s1.y : ℚ) + l2 * (s2.y : ℚ) := by
    rw [hprod]
    simp [homMat, Matrix.mulVec, Matrix.dotProduct, Fin.sum_univ_three]
    ring
  rw [warpCoord_of_thirdRowUnit _
    (thirdRowUnit_inv_of_mul_eq t s0 s1 s2 m0 m1 m2 hmul hm), ← mulVec_homog_eq,
    ← mulVec_homog_eq, h0, h1]

/-- The value of `create_map` at a pixel whose identifier `k + 1` selects the homography
`t`. -/
theorem create_map_value_at (triangleMap : MatOf Int) (homMatrices : List Mat3)
    (y x k : Nat) (t : Mat3) (hk : triangleMap.data y x = (k : Int) + 1)
    (ht : homMatrices[k]? = some t) :
    create_map_value triangleMap homMatrices y x = warpCoord (inv t) x y := by
  have hpos : triangleMap.data y x - 1 ≥ 0 := by omega
  have hidx : (triangleMap.data y x - 1).toNat = k := by omega
  simp only [create_map_value, hpos, if_true, hidx, List.getD_eq_getElem?_getD, ht,
    Option.getD_some]

/-- The denominator `create_map_z` is the `z` of `create_map`: the value written at a
pixel with a positive identifier is the quotient by it, or by `0.00001` when it is 0. -/
theorem create_map_pixel_eq_z (triangleMap : MatOf Int) (invs : List Mat3) (y x : Nat)
    (maps : MatOf ℚ × MatOf ℚ) (G : Mat3) (hpos : 1 ≤ triangleMap.data y x)
    (hG : invs[(triangleMap.data y x - 1).toNat]? = some G) :
    create_map_pixel triangleMap invs y x maps
      = some
        (maps.1.set y x ((G 0 0 * (x : ℚ) + G 0 1 * (y : ℚ) + G 0 2)
          / (if create_map_z G x y = 0 then 1 / 100000 else create_map_z G x y)),
        maps.2.set y x ((G 1 0 * (x : ℚ) + G 1 1 * (y : ℚ) + G 1 2)
          / (if create_map_z G x y = 0 then 1 / 100000 else create_map_z G x y))) := by
  have h : triangleMap.data y x - 1 ≥ 0 := by omega
  simp only [create_map_pixel, h, if_true, hG, create_map_z]

/-- The two blended transforms of two non-collinear triangles send their source triangle
onto the intermediate triangle, as matrix equations. -/
theorem morph_mul_homMat (a0 a1 a2 b0 b1 b2 : Point) (r : ℚ)
    (ha : ¬ collinear a0 a1 a2) :
    (morph_homography (homMat b0 b1 b2 * inv (homMat a0 a1 a2)) r).1 * homMat a0 a1 a2
        = homMat2f (interpolated r a0 b0) (interpolated r a1 b1) (interpolated r a2 b2) ∧
    (¬ collinear b0 b1 b2 →
      (morph_homography (homMat b0 b1 b2 * inv (homMat a0 a1 a2)) r).2 * homMat b0 b1 b2
        = homMat2f (interpolated r a0 b0) (interpolated r a1 b1) (interpolated r a2 b2)) := by
  refine ⟨?_, fun hb => ?_⟩
  · exact blend_mul_homMat _ r a0 a1 a2 b0 b1 b2 (solved_mul_homMat a0 a1 a2 b0 b1 b2 ha)
  · simp only [morph_homography, inv_solved a0 a1 a2 b0 b1 b2 ha hb]
    exact blend_swap_mul_homMat _ r a0 a1 a2 b0 b1 b2
      (solved_mul_homMat b0 b1 b2 a0 a1 a2 hb)

/-! ## Claim on the division guard of `create_map` -/

/-- C19 (as the code has it): every homography produced by `solve_homography` from a
non-collinear source triangle has third row `(0, 0, 1)`; `morph_homography` keeps it for
`H1` at every ratio, and for `H2` when the destination triangle is non-collinear too;
the inversion of an invertible matrix with that third row keeps it; hence in
`create_map`, for the two transforms of two non-collinear triangles whose intermediate
triangle `(1-r)*a + r*b` is non-collinear, the denominator `z` equals 1 at every pixel,
so the substitution for `z == 0` is not taken there. -/
theorem division_guard_dead (a0 a1 a2 b0 b1 b2 : Point) (r : ℚ)
    (ha : ¬ collinear a0 a1 a2) :
    ∃ H, solve_homography [a0, a1, a2] [b0, b1, b2] = some H ∧
      thirdRowUnit H ∧
      thirdRowUnit (morph_homography H r).1 ∧
      (∀ M : Mat3, thirdRowUnit M → det3 M ≠ 0 → thirdRowUnit (inv M)) ∧
      (¬ collinear b0 b1 b2 →
        thirdRowUnit (morph_homography H r).2 ∧
        (¬ collinear2f (interpolated r a0 b0) (interpolated r a1 b1) (interpolated r a2 b2) →
          ∀ x y : Nat,
            create_map_z (inv (morph_homography H r).1) x y = 1 ∧
            create_map_z (inv (morph_homography H r).2) x y = 1)) := by
  have hH := thirdRowUnit_solved a0 a1 a2 b0 b1 b2 ha
  obtain ⟨hm1, hm2⟩ := morph_mul_homMat a0 a1 a2 b0 b1 b2 r ha
  refine ⟨_, solve_homography_three a0 a1 a2 b0 b1 b2, hH, ?_, thirdRowUnit_inv, ?_⟩
  · exact thirdRowUnit_blend _ (1 - r) r (by ring) hH
  · intro hb
    refine ⟨?_, fun hm x y => ⟨?_, ?_⟩⟩
    · have hdet := det3_solved_ne_zero a0 a1 a2 b0 b1 b2 ha hb
      exact thirdRowUnit_blend _ r (1 - r) (by ring) (thirdRowUnit_inv _ hH hdet)
    · exact create_map_z_of_thirdRowUnit _
        (thirdRowUnit_inv_of_mul_eq _ a0 a1 a2 _ _ _ hm1 hm) x y
    · exact create_map_z_of_thirdRowUnit _
        (thirdRowUnit_inv_of_mul_eq _ b0 b1 b2 _ _ _ (hm2 hb) hm) x y

theorem division_guard_dead_witness :
    ¬ collinear ⟨0, 0⟩ ⟨2, 0⟩ ⟨0, 2⟩ ∧
    ∃ H, solve_homography [⟨0, 0⟩, ⟨2, 0⟩, ⟨0, 2⟩] [⟨2, 2⟩, ⟨4, 2⟩, ⟨2, 6⟩] = some H ∧
      thirdRowUnit H ∧ thirdRowUnit (morph_homography H (1 / 2)).1 ∧
      thirdRowUnit (morph_homography H (1 / 2)).2 ∧
      create_map_z (inv (morph_homography H (1 / 2)).1) 1 1 = 1 ∧
      create_map_z (inv (morph_homography H (1 / 2)).2) 1 1 = 1 := by
  refine ⟨by decide, ?_⟩
  obtain ⟨H, hH, h0, h1, -, h2⟩ :=
    division_guard_dead ⟨0, 0⟩ ⟨2, 0⟩ ⟨0, 2⟩ ⟨2, 2⟩ ⟨4, 2⟩ ⟨2, 6⟩ (1 / 2) (by decide)
  obtain ⟨h3, h4⟩ := h2 (by decide)
  have hz := h4 (by norm_num [collinear2f, interpolated]) 1 1
  exact ⟨H, hH, h0, h1, h3, hz.1, hz.2⟩

/-- The division guard of `create_map` is taken for two non-collinear triangles whose
intermediate triangle at ratio 1/2 is collinear: the blended transform is singular, its
inverse is the zero matrix and the denominator `z` is 0, not 1, at the pixel `(1, 1)`. -/
theorem division_guard_taken :
    ¬ collinear ⟨0, 0⟩ ⟨2, 0⟩ ⟨1, 2⟩ ∧ ¬ collinear ⟨0, 2⟩ ⟨2, 2⟩ ⟨1, 0⟩ ∧
    ∃ H, solve_homography [⟨0, 0⟩, ⟨2, 0⟩, ⟨1, 2⟩] [⟨0, 2⟩, ⟨2, 2⟩, ⟨1, 0⟩] = some H ∧
      create_map_z (inv (morph_homography H (1 / 2)).1) 1 1 = 0 ∧
      create_map_z (inv (morph_homography H (1 / 2)).1) 1 1 ≠ 1 := by
  have ha : ¬ collinear ⟨0, 0⟩ ⟨2, 0⟩ ⟨1, 2⟩ := by decide
  have hz : create_map_z
      (inv (morph_homography (homMat ⟨0, 2⟩ ⟨2, 2⟩ ⟨1, 0⟩ * inv (homMat ⟨0, 0⟩ ⟨2, 0⟩ ⟨1, 2⟩))
        (1 / 2)).1) 1 1 = 0 :=
    create_map_z_zero_of_collinear _ ⟨0, 0⟩ ⟨2, 0⟩ ⟨1, 2⟩ _ _ _ ha
      (morph_mul_homMat ⟨0, 0⟩ ⟨2, 0⟩ ⟨1, 2⟩ ⟨0, 2⟩ ⟨2, 2⟩ ⟨1, 0⟩ (1 / 2) ha).1
      (by norm_num [collinear2f, interpolated]) 1 1
  refine ⟨ha, by decide, _, solve_homography_three _ _ _ _ _ _, hz, ?_⟩
  rw [hz]
  exact zero_ne_one

/-! ## Claim on the inverse warp -/

/-- The maps `create_map` returns hold, at a pixel whose identifier selects the
transform `t`, the point of the source triangle `s` with the barycentric coordinates
the pixel has in the triangle `m` onto which `t` sends `s`. -/
theorem create_map_barycentric (triMap : MatOf Int) (homs : List Mat3)
    (mapx0 mapy0 : MatOf ℚ) (t : Mat3) (s0 s1 s2 : Point) (m0 m1 m2 : Point2f)
    (hmul : t * homMat s0 s1 s2 = homMat2f m0 m1 m2) (hm : ¬ collinear2f m0 m1 m2)
    (hid : ∀ y x, y < triMap.rows → x < triMap.cols → triMap.data y x ≤ homs.length)
    (y x k : Nat) (hy : y < triMap.rows) (hx : x < triMap.cols)
    (hk : triMap.data y x = (k : Int) + 1) (ht : homs[k]? = some t)
    (l0 l1 l2 : ℚ) (hsum : l0 + l1 + l2 = 1)
    (hpx : (x : ℚ) = l0 * m0.x + l1 * m1.x + l2 * m2.x)
    (hpy : (y : ℚ) = l0 * m0.y + l1 * m1.y + l2 * m2.y) :
    ∃ mapx mapy, create_map triMap homs mapx0 mapy0 = some (mapx, mapy) ∧
      mapx.data y x = l0 * (s0.x : ℚ) + l1 * (s1.x : ℚ) + l2 * (s2.x : ℚ) ∧
      mapy.data y x = l0 * (s0.y : ℚ) + l1 * (s1.y : ℚ) + l2 * (s2.y : ℚ) := by
  obtain ⟨mapx, mapy, hrun, -, hpix⟩ := create_map_eq_value triMap homs mapx0 mapy0 hid
  obtain ⟨h1, h2⟩ := hpix y x hy hx
  refine ⟨mapx, mapy, hrun, ?_, ?_⟩
  · rw [h1, create_map_value_at triMap homs y x k t hk ht,
      warpCoord_barycentric t s0 s1 s2 m0 m1 m2 hmul hm x y l0 l1 l2 hsum hpx hpy]
  · rw [h2, create_map_value_at triMap homs y x k t hk ht,
      warpCoord_barycentric t s0 s1 s2 m0 m1 m2 hmul hm x y l0 l1 l2 hsum hpx hpy]

/-- C18: for non-collinear integer triangles `a` and `b` and a ratio `r` such that the
intermediate triangle `m[i] = (1-r)*a[i] + r*b[i]` is non-collinear, let
`(H1, H2) = morph_homography(solve_homography(a, b), r)`. For every pixel `p` whose ID
selects this triangle, with barycentric coordinates `(l0, l1, l2)` in `m`, `create_map`
with `H1` returns the point `l0*a[0] + l1*a[1] + l2*a[2]` of triangle `a` and
`create_map` with `H2` returns the point `l0*b[0] + l1*b[1] + l2*b[2]` of triangle `b`;
a pixel at the vertex `m[i]` (coordinates 1 at `i`, 0 elsewhere) is thus mapped to `a[i]`
and to `b[i]`. -/
theorem inverse_warp_barycentric (a0 a1 a2 b0 b1 b2 : Point) (r : ℚ)
    (ha : ¬ collinear a0 a1 a2) (hb : ¬ collinear b0 b1 b2)
    (hm : ¬ collinear2f (interpolated r a0 b0) (interpolated r a1 b1) (interpolated r a2 b2))
    (triMap : MatOf Int) (homs1 homs2 : List Mat3) (mapx0 mapy0 : MatOf ℚ)
    (hid1 : ∀ y x, y < triMap.rows → x < triMap.cols → triMap.data y x ≤ homs1.length)
    (hid2 : ∀ y x, y < triMap.rows → x < triMap.cols → triMap.data y x ≤ homs2.length)
    (y x k : Nat) (hy : y < triMap.rows) (hx : x < triMap.cols)
    (hk : triMap.data y x = (k : Int) + 1)
    (l0 l1 l2 : ℚ) (hsum : l0 + l1 + l2 = 1)
    (hpx : (x : ℚ) = l0 * (interpolated r a0 b0).x + l1 * (interpolated r a1 b1).x
      + l2 * (interpolated r a2 b2).x)
    (hpy : (y : ℚ) = l0 * (interpolated r a0 b0).y + l1 * (interpolated r a1 b1).y
      + l2 * (interpolated r a2 b2).y) :
    ∃ H, solve_homography [a0, a1, a2] [b0, b1, b2] = some H ∧
      (homs1[k]? = some (morph_homography H r).1 →
        ∃ mapx mapy, create_map triMap homs1 mapx0 mapy0 = some (mapx, mapy) ∧
          mapx.data y x = l0 * (a0.x : ℚ) + l1 * (a1.x : ℚ) + l2 * (a2.x : ℚ) ∧
          mapy.data y x = l0 * (a0.y : ℚ) + l1 * (a1.y : ℚ) + l2 * (a2.y : ℚ)) ∧
      (homs2[k]? = some (morph_homography H r).2 →
        ∃ mapx mapy, create_map triMap homs2 mapx0 mapy0 = some (mapx, mapy) ∧
          mapx.data y x = l0 * (b0.x : ℚ) + l1 * (b1.x : ℚ) + l2 * (b2.x : ℚ) ∧
          mapy.data y x = l0 * (b0.y : ℚ) + l1 * (b1.y : ℚ) + l2 * (b2.y : ℚ)) := by
  obtain ⟨hm1, hm2⟩ := morph_mul_homMat a0 a1 a2 b0 b1 b2 r ha
  refine ⟨_, solve_homography_three a0 a1 a2 b0 b1 b2, fun h1 => ?_, fun h2 => ?_⟩
  · exact create_map_barycentric triMap homs1 mapx0 mapy0 _ a0 a1 a2 _ _ _ hm1 hm hid1
      y x k hy hx hk h1 l0 l1 l2 hsum hpx hpy
  · exact create_map_barycentric triMap homs2 mapx0 mapy0 _ b0 b1 b2 _ _ _ (hm2 hb) hm hid2
      y x k hy hx hk h2 l0 l1 l2 hsum hpx hpy

theorem inverse_warp_barycentric_witness :
    ∃ H, solve_homography [⟨0, 0⟩, ⟨2, 0⟩, ⟨0, 2⟩] [⟨2, 2⟩, ⟨4, 2⟩, ⟨2, 6⟩] = some H ∧
      (∃ mapx mapy,
        create_map ⟨5, 5, fun _ _ => 1⟩ [(morph_homography H (1 / 2)).1]
          ⟨0, 0, fun _ _ => 0⟩ ⟨0, 0, fun _ _ => 0⟩ = some (mapx, mapy) ∧
        mapx.data 1 1 = 0 ∧ mapy.data 1 1 = 0) ∧
      (∃ mapx mapy,
        create_map ⟨5, 5, fun _ _ => 1⟩ [(morph_homography H (1 / 2)).2]
          ⟨0, 0, fun _ _ => 0⟩ ⟨0, 0, fun _ _ => 0⟩ = some (mapx, mapy) ∧
        mapx.data 1 1 = 2 ∧ mapy.data 1 1 = 2) := by
  obtain ⟨H, hH, h1, h2⟩ :=
    inverse_warp_barycentric ⟨0, 0⟩ ⟨2, 0⟩ ⟨0, 2⟩ ⟨2, 2⟩ ⟨4, 2⟩ ⟨2, 6⟩ (1 / 2)
      (by decide) (by decide) (by norm_num [collinear2f, interpolated])
      ⟨5, 5, fun _ _ => 1⟩
      [(morph_homography (homMat ⟨2, 2⟩ ⟨4, 2⟩ ⟨2, 6⟩ * inv (homMat ⟨0, 0⟩ ⟨2, 0⟩ ⟨0, 2⟩))
        (1 / 2)).1]
      [(morph_homography (homMat ⟨2, 2⟩ ⟨4, 2⟩ ⟨2, 6⟩ * inv (homMat ⟨0, 0⟩ ⟨2, 0⟩ ⟨0, 2⟩))
        (1 / 2)).2]
      ⟨0, 0, fun _ _ => 0⟩ ⟨0, 0, fun _ _ => 0⟩
      (by intro y x _ _; simp) (by intro y x _ _; simp)
      1 1 0 (by decide) (by decide) (by simp) 1 0 0 (by norm_num)
      (by norm_num [interpolated]) (by norm_num [interpolated])
  have hHeq : H = homMat ⟨2, 2⟩ ⟨4, 2⟩ ⟨2, 6⟩ * inv (homMat ⟨0, 0⟩ ⟨2, 0⟩ ⟨0, 2⟩) := by
    rw [solve_homography_three] at hH
    exact (Option.some.inj hH).symm
  subst hHeq
  obtain ⟨mx1, my1, r1, vx1, vy1⟩ := h1 rfl
  obtain ⟨mx2, my2, r2, vx2, vy2⟩ := h2 rfl
  refine ⟨_, solve_homography_three _ _ _ _ _ _, ⟨mx1, my1, r1, ?_, ?_⟩,
    ⟨mx2, my2, r2, ?_, ?_⟩⟩
  · rw [vx1]; norm_num
  · rw [vy1]; norm_num
  · rw [vx2]; norm_num
  · rw [vy2]; norm_num

/-! ## Lemmas on `cvRound` and `make_delaunay_mesh` -/

/-- The function `cvRound` returns a nearest integer. -/
theorem cvRound_nearest (v : ℚ) : |((cvRound v : Int) : ℚ) - v| ≤ 1 / 2 := by
  have h1 := Int.floor_le v
  have h2 := Int.lt_floor_add_one v
  unfold cvRound
  simp only
  split_ifs with ha hb hc
  · rw [abs_le]
    constructor <;> linarith
  · rw [abs_le]
    push_cast
    constructor <;> linarith
  · rw [abs_le]
    constructor <;> linarith
  · rw [abs_le]
    push_cast
    constructor <;> linarith

theorem make_delaunay_mesh_body_eq (size : Size) (triangleList : List Vec6f)
    (acc : List Point2f) (i : Nat) (t : Vec6f) (ht : triangleList[i]? = some t) :
    make_delaunay_mesh_body ⟨0, 0, size.width, size.height⟩ triangleList acc i
      = acc ++ (if TriangleInBounds size t then
          [roundedVertex t 0, roundedVertex t 1, roundedVertex t 2] else []) := by
  have hget : triangleList.getD i default = t := by
    rw [List.getD_eq_getElem?_getD, ht]
    rfl
  have hall : TriangleInBounds size t ↔
      ((⟨0, 0, size.width, size.height⟩ : Rect).contains
          ⟨(cvRound t.c0 : ℚ), (cvRound t.c1 : ℚ)⟩ ∧
        (⟨0, 0, size.width, size.height⟩ : Rect).contains
          ⟨(cvRound t.c2 : ℚ), (cvRound t.c3 : ℚ)⟩ ∧
        (⟨0, 0, size.width, size.height⟩ : Rect).contains
          ⟨(cvRound t.c4 : ℚ), (cvRound t.c5 : ℚ)⟩) := by
    simp only [TriangleInBounds, Fin.forall_fin_succ, Fin.forall_fin_zero_pi]
    simp [InBounds, Rect.contains, roundedVertex, Vec6f.vertex]
  simp only [make_delaunay_mesh_body, hget]
  by_cases h : TriangleInBounds size t
  · rw [if_pos h, if_pos (hall.mp h)]
    simp [roundedVertex, Vec6f.vertex]
  · rw [if_neg h, if_neg (fun h' => h (hall.mpr h'))]
    simp

theorem make_delaunay_mesh_loop (size : Size) (triangleList : List Vec6f)
    (acc : List Point2f) (n : Nat) (hn : n ≤ triangleList.length) :
    (List.range n).foldl
        (make_delaunay_mesh_body ⟨0, 0, size.width, size.height⟩ triangleList) acc
      = acc ++ (triangleList.take n).flatMap (fun t =>
          if TriangleInBounds size t then
            [roundedVertex t 0, roundedVertex t 1, roundedVertex t 2] else []) := by
  induction n with
  | zero => simp
  | succ n ih =>
    have hlt : n < triangleList.length := by omega
    have ht : triangleList[n]? = some triangleList[n] := List.getElem?_eq_getElem hlt
    rw [List.range_succ, List.foldl_append, ih (by omega), List.foldl_cons, List.foldl_nil,
      make_delaunay_mesh_body_eq size triangleList _ n _ ht, List.take_succ, ht,
      List.flatMap_append]
    simp

theorem flatMap_ite_eq_filter {α β : Type} (p : α → Prop) [DecidablePred p]
    (g : α → List β) (l : List α) :
    l.flatMap (fun a => if p a then g a else []) = (l.filter (fun a => decide (p a))).flatMap g := by
  induction l with
  | nil => rfl
  | cons a l ih =>
    by_cases h : p a
    · simp [List.filter_cons, h, ih]
    · simp [List.filter_cons, h, ih]

theorem make_delaunay_mesh_eq (size : Size) (triangleList : List Vec6f)
    (dstPoints : List Point2f) :
    make_delaunay_mesh size triangleList dstPoints
      = dstPoints ++ (triangleList.filter (fun t => decide (TriangleInBounds size t))).flatMap
          (fun t => [roundedVertex t 0, roundedVertex t 1, roundedVertex t 2]) := by
  simp only [make_delaunay_mesh]
  rw [make_delaunay_mesh_loop size triangleList dstPoints triangleList.length le_rfl,
    List.take_length, flatMap_ite_eq_filter]

theorem length_flatMap_triple {α β : Type} (g0 g1 g2 : α → β) (l : List α) :
    (l.flatMap (fun a => [g0 a, g1 a, g2 a])).length = 3 * l.length := by
  induction l with
  | nil => rfl
  | cons a l ih =>
    simp only [List.flatMap_cons, List.length_append, List.length_cons, List.length_nil, ih]
    omega

/-! ## Claim on `make_delaunay_mesh` -/

/-- C11: `make_delaunay_mesh` drops exactly the out-of-bounds triangles. For every
triangle list and size, the points it appends to `dstPoints` are, in input order, the
three vertices, each coordinate rounded to a nearest integer, of precisely those
triangles whose three rounded vertices all satisfy `0 <= x < width` and
`0 <= y < height`; the number of appended points is three times the number of kept
triangles and no appended point lies outside the bounds. -/
theorem make_delaunay_mesh_drops_out_of_bounds (size : Size) (triangleList : List Vec6f)
    (dstPoints : List Point2f) :
    (∀ v : ℚ, |((cvRound v : Int) : ℚ) - v| ≤ 1 / 2) ∧
    ∃ appended, make_delaunay_mesh size triangleList dstPoints = dstPoints ++ appended ∧
      appended
        = (triangleList.filter (fun t => decide (TriangleInBounds size t))).flatMap
            (fun t => [roundedVertex t 0, roundedVertex t 1, roundedVertex t 2]) ∧
      appended.length
        = 3 * (triangleList.filter (fun t => decide (TriangleInBounds size t))).length ∧
      ∀ p ∈ appended, InBounds size p := by
  refine ⟨cvRound_nearest, _, make_delaunay_mesh_eq size triangleList dstPoints, rfl,
    length_flatMap_triple _ _ _ _, ?_⟩
  intro p hp
  rw [List.mem_flatMap] at hp
  obtain ⟨t, ht, hpt⟩ := hp
  have hin : TriangleInBounds size t := by
    simpa using (List.mem_filter.mp ht).2
  simp only [List.mem_cons, List.mem_singleton, List.not_mem_nil, or_false] at hpt
  rcases hpt with rfl | rfl | rfl
  · exact hin 0
  · exact hin 1
  · exact hin 2

/-- On an integer `cvRound` changes nothing, as its overload for `int` does. -/
theorem cvRound_intCast (n : Int) : cvRound (n : ℚ) = n := by
  simp [cvRound]

/-! ## Claim on the blend mask -/

/-- C12: for every `maskRatio` and every pixel, with the inverted guidance value
`g = 1 - grayscale(guidance)`, the blend mask computed in `morph_images` equals
`clamp((1 - maskRatio) - g*maskRatio, 0, 1)`; every mask value lies in `[0, 1]`, and the
mask has the dimensions of the guidance. -/
theorem morph_images_lbmask_clamp (m2 : MatOf ℚ) (maskRatio : ℚ) (y x : Nat) :
    (morph_images_lbmask m2 maskRatio).data y x
        = clamp ((1 - maskRatio) - (1 - m2.data y x) * maskRatio) 0 1 ∧
    0 ≤ (morph_images_lbmask m2 maskRatio).data y x ∧
    (morph_images_lbmask m2 maskRatio).data y x ≤ 1 ∧
    (morph_images_lbmask m2 maskRatio).rows = m2.rows ∧
    (morph_images_lbmask m2 maskRatio).cols = m2.cols := by
  have hval : (morph_images_lbmask m2 maskRatio).data y x
      = clamp ((1 - maskRatio) - (1 - m2.data y x) * maskRatio) 0 1 := by
    simp only [morph_images_lbmask, MatOf.setTo, MatOf.gt, MatOf.lt, MatOf.sub, MatOf.scale,
      MatOf.ones, MatOf.rsub, clamp, one_mul, decide_eq_true_eq]
    by_cases h0 : 1 - maskRatio - (1 - m2.data y x) * maskRatio < 0
    · have h1 : ¬ ((0 : ℚ) > 1) := by norm_num
      rw [if_pos h0, if_neg h1, min_eq_left (by linarith), max_eq_left (by linarith)]
    · rw [if_neg h0]
      by_cases h1 : 1 - maskRatio - (1 - m2.data y x) * maskRatio > 1
      · rw [if_pos h1, min_eq_right (by linarith), max_eq_right (by norm_num)]
      · rw [if_neg h1, min_eq_left (by linarith), max_eq_right (by linarith)]
  refine ⟨hval, ?_, ?_, rfl, rfl⟩
  · rw [hval]
    exact le_max_left _ _
  · rw [hval]
    exact max_le (by norm_num) (min_le_right _ _)

/-! ## Claim on the sharpening amount -/

/-- The value `morph_images` passes to `unsharp_mask` at `maskRatio = 0` is 1: it is
neither 0 nor `sin(0 * pi)`. -/
theorem unsharp_arg_at_zero :
    morph_images_unsharp_arg Real.sin Real.pi 0 = 1 ∧
    morph_images_unsharp_arg Real.sin Real.pi 0 ≠ 0 ∧
    morph_images_unsharp_arg Real.sin Real.pi 0 ≠ Real.sin (0 * Real.pi) := by
  have h : morph_images_unsharp_arg Real.sin Real.pi 0 = 1 := by
    simp [morph_images_unsharp_arg, morph_images_amount]
  refine ⟨h, ?_, ?_⟩
  · rw [h]
    exact one_ne_zero
  · rw [h]
    simp

/-- C13 (as the code has it): `morph_images` computes `amount = sin(maskRatio * pi)`,
which is 0 for `maskRatio = 0` and for `maskRatio = 1` and is largest, with value 1, at
`maskRatio = 0.5`; what it passes to the unsharp-mask post-filter is `1 - amount`, which
is 1 for `maskRatio = 0` and for `maskRatio = 1` and is smallest, with value 0, at
`maskRatio = 0.5`. -/
theorem unsharp_amount_values (maskRatio : ℝ) :
    morph_images_amount Real.sin Real.pi maskRatio = Real.sin (maskRatio * Real.pi) ∧
    morph_images_unsharp_arg Real.sin Real.pi maskRatio
      = 1 - Real.sin (maskRatio * Real.pi) ∧
    (morph_images_amount Real.sin Real.pi 0 = 0 ∧
      morph_images_amount Real.sin Real.pi 1 = 0 ∧
      morph_images_amount Real.sin Real.pi (1 / 2) = 1 ∧
      morph_images_amount Real.sin Real.pi maskRatio
        ≤ morph_images_amount Real.sin Real.pi (1 / 2)) ∧
    (morph_images_unsharp_arg Real.sin Real.pi 0 = 1 ∧
      morph_images_unsharp_arg Real.sin Real.pi 1 = 1 ∧
      morph_images_unsharp_arg Real.sin Real.pi (1 / 2) = 0 ∧
      morph_images_unsharp_arg Real.sin Real.pi (1 / 2)
        ≤ morph_images_unsharp_arg Real.sin Real.pi maskRatio) := by
  have hhalf : Real.sin (1 / 2 * Real.pi) = 1 := by
    rw [show (1 / 2 : ℝ) * Real.pi = Real.pi / 2 by ring]
    exact Real.sin_pi_div_two
  have hle : Real.sin (maskRatio * Real.pi) ≤ 1 := Real.sin_le_one _
  refine ⟨rfl, rfl, ⟨?_, ?_, ?_, ?_⟩, ⟨?_, ?_, ?_, ?_⟩⟩
  · simp [morph_images_amount]
  · simp [morph_images_amount]
  · simpa [morph_images_amount] using hhalf
  · simp only [morph_images_amount]
    rw [hhalf]
    exact hle
  · simp [morph_images_unsharp_arg, morph_images_amount]
  · simp [morph_images_unsharp_arg, morph_images_amount]
  · simp only [morph_images_unsharp_arg, morph_images_amount]
    rw [hhalf]
    ring
  · simp only [morph_images_unsharp_arg, morph_images_amount]
    rw [hhalf]
    linarith

/-! ## Lemmas on `paint_triangles` -/

theorem roundedPoly_isSome (t : List Point) (h : 3 ≤ t.length) :
    ∃ poly, roundedPoly t = some poly := by
  match t, h with
  | p0 :: p1 :: p2 :: rest, _ =>
    exact ⟨[⟨cvRound (p0.x : ℚ), cvRound (p0.y : ℚ)⟩, ⟨cvRound (p1.x : ℚ), cvRound (p1.y : ℚ)⟩,
      ⟨cvRound (p2.x : ℚ), cvRound (p2.y : ℚ)⟩], by simp [roundedPoly]⟩

/-- Loop invariant of `paint_triangles`: after `n` iterations the dimensions are
unchanged, and a pixel of the image holds `i + 1` for the last triangle `i < n` whose
filled region contains it, or its initial value when there is none. -/
theorem paint_triangles_loop (filled : List Point → Nat → Nat → Bool)
    (triangles : List (List Point)) (img : MatOf Int) (n : Nat)
    (h3 : ∀ i, i < n → 3 ≤ (triangles.getD i []).length) :
    ∃ out, (List.range n).foldlM (paint_triangles_body filled triangles) img = some out ∧
      out.rows = img.rows ∧ out.cols = img.cols ∧
      ∀ y x, y < img.rows → x < img.cols →
        (∃ i, i < n ∧ covers filled triangles i y x ∧
          (∀ j, i < j → j < n → ¬ covers filled triangles j y x) ∧
          out.data y x = (i : Int) + 1) ∨
        ((∀ i, i < n → ¬ covers filled triangles i y x) ∧ out.data y x = img.data y x) := by
  induction n with
  | zero =>
    exact ⟨img, by simp, rfl, rfl, fun y x _ _ => Or.inr ⟨fun i hi => absurd hi (by omega), rfl⟩⟩
  | succ n ih =>
    obtain ⟨m, hm, hrows, hcols, hpix⟩ := ih (fun i hi => h3 i (by omega))
    obtain ⟨poly, hpoly⟩ := roundedPoly_isSome _ (h3 n (by omega))
    refine ⟨fillConvexPoly filled m poly ((n : Int) + 1), ?_, hrows, hcols, ?_⟩
    · rw [List.range_succ, List.foldlM_append, hm]
      simp only [List.foldlM_cons, List.foldlM_nil, Option.bind_eq_bind, Option.some_bind,
        paint_triangles_body, hpoly, Option.bind_some]
      rfl
    · intro y x hy hx
      by_cases hf : filled poly y x = true
      · left
        refine ⟨n, by omega, ⟨poly, hpoly, hf⟩, fun j h1 h2 => absurd h1 (by omega), ?_⟩
        simp [fillConvexPoly, hrows, hcols, hy, hx, hf]
      · have hncov : ¬ covers filled triangles n y x := by
          rintro ⟨q, hq, hfq⟩
          rw [hpoly] at hq
          cases hq
          exact hf hfq
        have hval : (fillConvexPoly filled m poly ((n : Int) + 1)).data y x = m.data y x := by
          simp [fillConvexPoly, hf]
        rcases hpix y x hy hx with ⟨i, hi, hc, hlast, hv⟩ | ⟨hnone, hv⟩
        · left
          refine ⟨i, by omega, hc, fun j h1 h2 => ?_, by rw [hval, hv]⟩
          by_cases hjn : j = n
          · subst hjn
            exact hncov
          · exact hlast j h1 (by omega)
        · right
          refine ⟨fun i hi => ?_, by rw [hval, hv]⟩
          by_cases hin : i = n
          · subst hin
            exact hncov
          · exact hnone i (by omega)

/-! ## Claim on `paint_triangles` -/

theorem roundFloat_zero : roundFloat 0 = some 0 := by
  simp [roundFloat, roundNearestEven]

theorem roundDouble_zero : roundDouble 0 = some 0 := by
  simp [roundDouble, roundNearestEven]

theorem roundDouble_one : roundDouble 1 = some 1 := by
  decide!

/-- A value of a binary format is a value of every format with at least as many
significant bits and at least as wide an exponent range. -/
theorem roundNearestEven_widen (p1 p2 : Nat) (emin1 emin2 emax1 emax2 : Int)
    (hp : p1 ≤ p2) (hemin : emin2 ≤ emin1) (hemax : emax1 ≤ emax2) (x : ℚ)
    (h : roundNearestEven p1 emin1 emax1 x = some x) :
    roundNearestEven p2 emin2 emax2 x = some x := by
  by_cases hx : x = 0
  · simp [roundNearestEven, hx]
  · simp only [roundNearestEven, hx, if_false] at h
    split_ifs at h with hlt
    have hval : (cvRound (x / 2 ^ (max (ilog2 x) emin1 - ((p1 : Int) - 1))) : ℚ)
        * 2 ^ (max (ilog2 x) emin1 - ((p1 : Int) - 1)) = x := Option.some.inj h
    rw [hval] at hlt
    have hd : 0 ≤ (max (ilog2 x) emin1 - ((p1 : Int) - 1))
        - (max (ilog2 x) emin2 - ((p2 : Int) - 1)) := by
      have h1 : max (ilog2 x) emin2 ≤ max (ilog2 x) emin1 := max_le_max le_rfl hemin
      have h2 : (p1 : Int) ≤ (p2 : Int) := Int.ofNat_le.mpr hp
      linarith
    have hpow : ((2 : ℚ) ^ ((max (ilog2 x) emin1 - ((p1 : Int) - 1))
            - (max (ilog2 x) emin2 - ((p2 : Int) - 1))).toNat)
        = 2 ^ (max (ilog2 x) emin1 - ((p1 : Int) - 1))
          / 2 ^ (max (ilog2 x) emin2 - ((p2 : Int) - 1)) := by
      rw [← zpow_sub₀ (two_ne_zero : (2 : ℚ) ≠ 0), ← zpow_natCast,
        Int.toNat_of_nonneg hd]
    have hquot : x / 2 ^ (max (ilog2 x) emin2 - ((p2 : Int) - 1))
        = ((cvRound (x / 2 ^ (max (ilog2 x) emin1 - ((p1 : Int) - 1)))
            * 2 ^ ((max (ilog2 x) emin1 - ((p1 : Int) - 1))
              - (max (ilog2 x) emin2 - ((p2 : Int) - 1))).toNat : Int) : ℚ) := by
      rw [Int.cast_mul, Int.cast_pow, Int.cast_ofNat, hpow, ← mul_div_assoc, hval]
    have hq : (2 : ℚ) ^ (max (ilog2 x) emin2 - ((p2 : Int) - 1)) ≠ 0 :=
      zpow_ne_zero _ two_ne_zero
    have hround : (cvRound (x / 2 ^ (max (ilog2 x) emin2 - ((p2 : Int) - 1))) : ℚ)
        * 2 ^ (max (ilog2 x) emin2 - ((p2 : Int) - 1)) = x := by
      rw [hquot, cvRound_intCast, ← hquot, div_mul_cancel₀ _ hq]
    have hbig : |x| < (2 : ℚ) ^ (emax2 + 1) :=
      lt_of_lt_of_le hlt (zpow_le_zpow_right₀ (by norm_num) (by linarith))
    simp only [roundNearestEven, hx, if_false]
    rw [hround, if_pos hbig]

/-- A `float` value converts to `double` without change. -/
theorem roundDouble_of_roundFloat (x : ℚ) (h : roundFloat x = some x) :
    roundDouble x = some x :=
  roundNearestEven_widen 24 53 (-126) (-1022) 127 1023 (by norm_num) (by norm_num)
    (by norm_num) x h

/-- At ratio 0 the stored coordinate is the `float` coordinate of the first source. -/
theorem morph_points_coord_zero (x : ℚ) (h : roundFloat x = some x) :
    morph_points_coord 0 x x = some x := by
  have h64 := roundDouble_of_roundFloat x h
  simp [morph_points_coord, roundDouble_one, roundFloat_zero, h64, h]

/-- At ratio 1 the stored coordinate is the `float` coordinate of the second source. -/
theorem morph_points_coord_one (x : ℚ) (h : roundFloat x = some x) :
    morph_points_coord 1 x x = some x := by
  have h64 := roundDouble_of_roundFloat x h
  simp [morph_points_coord, roundDouble_zero, h64, h]

/-- Loop invariant of `morph_points` with the roundings, when every coordinate is
computed to the coordinate of `g i`. -/
theorem morph_points_rounded_loop (s : ℚ) (A B D : List Point2f) (g : Nat → Point2f)
    (n : Nat) (hD : n ≤ D.length)
    (hg : ∀ i, i < n →
      morph_points_coord s (A.getD i default).x (B.getD i default).x = some (g i).x ∧
      morph_points_coord s (A.getD i default).y (B.getD i default).y = some (g i).y) :
    ∃ C, (List.range n).foldlM (morph_points_body_rounded s) ⟨A, B, D⟩ = some ⟨A, B, C⟩ ∧
      C.length = D.length ∧ ∀ i, i < n → C[i]? = some (g i) := by
  induction n with
  | zero => exact ⟨D, by simp, rfl, by simp⟩
  | succ n ih =>
    obtain ⟨C, hC, hlen, hlo⟩ := ih (by omega) (fun i hi => hg i (by omega))
    obtain ⟨hx, hy⟩ := hg n (by omega)
    refine ⟨C.set n (g n), ?_, by simp [hlen], ?_⟩
    · rw [List.range_succ, List.foldlM_append, hC]
      simp only [List.foldlM_cons, List.foldlM_nil, Option.bind_eq_bind, Option.some_bind,
        morph_points_body_rounded, hx, hy, Option.bind_some]
      rfl
    · intro i hi
      by_cases hin : i = n
      · subst hin
        rw [List.getElem?_set_self (by omega)]
      · rw [List.getElem?_set_ne (by omega)]
        exact hlo i (by omega)

/-- With the roundings, interpolating a set of `float` points with itself returns the
set when every coordinate is computed to itself. -/
theorem morph_points_rounded_self (s : ℚ) (A D : List Point2f)
    (hcoord : ∀ p ∈ A, morph_points_coord s p.x p.x = some p.x ∧
      morph_points_coord s p.y p.y = some p.y) :
    morph_points_rounded ⟨A, A, D⟩ s = some ⟨A, A, A⟩ := by
  have hget : ∀ i, i < A.length → A[i]? = some (A.getD i default) := by
    intro i hi
    rw [List.getD_eq_getElem?_getD, List.getElem?_eq_getElem hi]
    rfl
  have hmem : ∀ i, i < A.length → A.getD i default ∈ A := by
    intro i hi
    have h := hget i hi
    rw [List.getElem?_eq_getElem hi] at h
    rw [← Option.some.inj h]
    exact List.getElem_mem hi
  obtain ⟨C, hC, hlen, hlo⟩ :=
    morph_points_rounded_loop s A A (resize D A.length) (fun i => A.getD i default)
      A.length (by rw [length_resize])
      (fun i hi => hcoord _ (hmem i hi))
  rw [length_resize] at hlen
  have hCA : C = A := by
    apply List.ext_getElem?
    intro i
    by_cases hi : i < A.length
    · rw [hlo i hi, hget i hi]
    · rw [List.getElem?_eq_none (by omega), List.getElem?_eq_none (by omega)]
  simp only [morph_points_rounded, if_true]
  rw [hC, hCA]

/-! ## Claim on the interpolation of a point set with itself -/

end poppy
